import Mathlib

/-!
Verification of the rich-text formatting engine of the py_word_pro word
processor (`src/logic/formatting.py`, `src/logic/file_manager.py`,
`src/app.py`).

The Tk text widget is shallowly embedded: the document is a character list
addressed by absolute 0-based positions, and each Tk tag is an entry in a
creation-ordered list carrying the tag's identity (for combined font-style
tags this is the StyleSpec encoded in the tag name and kept in
`_style_meta`; for `color_fg_*` / `color_bg_*` tags it is the color string;
for alignment it is one of the three names `left`/`center`/`right`)
together with the list of intervals that were `tag_add`-ed to it.
Tk's `tag_ranges` returns the maximal runs of the covered positions; that
is computed from the coverage predicate (`normRuns`).  Tk index strings
(`"line.col"`, `sel.first`, ...) are translated to absolute positions /
1-based line numbers at the interface of each operation.
-/

namespace PyWordPro

/-- A combined font-style specification: the dict
`{family, size, b, i, u, o}` kept in `FormatManager._style_meta` for every
combined style tag (`STYLE_TAG_PREFIX` tags).  `_style_tag_name` encodes
exactly these six fields into the tag name, so a tag's identity is its
spec. -/
structure Spec where
  family : String
  size : Int
  b : Bool
  i : Bool
  u : Bool
  o : Bool
deriving DecidableEq, Repr

/-- The four toggleable dimensions accepted by `toggle_format`
(`bold` / `italic` / `underline` / `overstrike`). -/
inductive StyleFlag where
  | bold
  | italic
  | underline
  | overstrike
deriving DecidableEq, Repr

/-- Flip exactly the targeted flag of a spec, as the `if tag == 'bold': ...`
chain in `toggle_format` does. -/
def flipFlag (f : StyleFlag) (s : Spec) : Spec :=
  match f with
  | .bold => { s with b := !s.b }
  | .italic => { s with i := !s.i }
  | .underline => { s with u := !s.u }
  | .overstrike => { s with o := !s.o }

/-- Read the targeted flag of a spec. -/
def flagOf (f : StyleFlag) (s : Spec) : Bool :=
  match f with
  | .bold => s.b
  | .italic => s.i
  | .underline => s.u
  | .overstrike => s.o

/-- A half-open interval of absolute character positions. -/
abbrev Range := Nat × Nat

/-- Position `p` lies in the half-open interval `r`. -/
def inRange (r : Range) (p : Nat) : Bool :=
  decide (r.1 ≤ p) && decide (p < r.2)

/-- A Tk tag covers position `p` iff one of its added intervals contains
`p` (this is what `tag_names(index)` membership reports). -/
def covers (rs : List Range) (p : Nat) : Bool :=
  rs.any (fun r => inRange r p)

theorem covers_append (rs rs' : List Range) (p : Nat) :
    covers (rs ++ rs') p = (covers rs p || covers rs' p) := by
  simp [covers]

/-- `tag_remove(start, end)`: delete the interval `[s, e)` from every
stored interval, keeping the pieces that fall outside it. -/
def removeRangeFromRanges (rs : List Range) (s e : Nat) : List Range :=
  rs.flatMap (fun r =>
    (if r.1 < min r.2 s then [(r.1, min r.2 s)] else []) ++
    (if max r.1 e < r.2 then [(max r.1 e, r.2)] else []))

theorem bool_eq_iff (x y : Bool) : x = y ↔ (x = true ↔ y = true) := by
  cases x <;> cases y <;> simp

theorem covers_piece (a b s e p : Nat) :
    covers ((if a < min b s then [(a, min b s)] else []) ++
      (if max a e < b then [(max a e, b)] else [])) p =
      (inRange (a, b) p && !(decide (s ≤ p) && decide (p < e))) := by
  rw [bool_eq_iff]
  by_cases h1 : a < min b s <;> by_cases h2 : max a e < b <;>
    simp [covers, inRange, h1, h2] <;> omega

theorem covers_removeRangeFromRanges (rs : List Range) (s e p : Nat) :
    covers (removeRangeFromRanges rs s e) p =
      (covers rs p && !(decide (s ≤ p) && decide (p < e))) := by
  induction rs with
  | nil => simp [covers, removeRangeFromRanges]
  | cons r rest ih =>
    rw [removeRangeFromRanges, List.flatMap_cons, covers_append, covers_piece,
      ← removeRangeFromRanges, ih]
    have hr : covers (r :: rest) p = (inRange r p || covers rest p) := by
      simp [covers]
    rw [hr]
    generalize inRange r p = x
    generalize covers rest p = y
    generalize (!(decide (s ≤ p) && decide (p < e))) = z
    cases x <;> cases y <;> cases z <;> rfl

/-! ### Maximal runs: the semantics of Tk's `tag_ranges`

`tag_ranges(tag)` reports the maximal contiguous runs of positions covered
by the tag, in increasing order.  `runLen cov len a` is the length of the
covered run beginning at `a`, `runStarts` the list of run starts, and
`normRuns` the resulting run list. -/

/-- Length of the contiguous covered run starting at `a` (stops at `len`
or at the first uncovered position). -/
def runLen (cov : Nat → Bool) (len a : Nat) : Nat :=
  if h : a < len ∧ cov a = true then runLen cov len (a + 1) + 1 else 0
termination_by len - a
decreasing_by omega

/-- Positions where a maximal covered run begins. -/
def runStarts (cov : Nat → Bool) (len : Nat) : List Nat :=
  (List.range len).filter (fun p => cov p && (decide (p = 0) || !cov (p - 1)))

/-- The maximal runs of covered positions in `[0, len)`: the model of
`editor.tag_ranges(tag)`. -/
def normRuns (cov : Nat → Bool) (len : Nat) : List Range :=
  (runStarts cov len).map (fun a => (a, a + runLen cov len a))

theorem runLen_all_cov_aux (cov : Nat → Bool) (len : Nat) :
    ∀ k a p, len - a ≤ k → a ≤ p → p < a + runLen cov len a →
      cov p = true ∧ p < len := by
  intro k
  induction k with
  | zero =>
    intro a p hk hap hlt
    unfold runLen at hlt
    rw [dif_neg (by omega)] at hlt
    omega
  | succ k ih =>
    intro a p hk hap hlt
    unfold runLen at hlt
    by_cases h : a < len ∧ cov a = true
    · rw [dif_pos h] at hlt
      rcases Nat.eq_or_lt_of_le hap with rfl | hap'
      · exact ⟨h.2, h.1⟩
      · exact ih (a + 1) p (by omega) (by omega) (by omega)
    · rw [dif_neg h] at hlt
      omega

/-- Every position inside a run is covered and within the document. -/
theorem runLen_all_cov (cov : Nat → Bool) (len a p : Nat) (hap : a ≤ p)
    (hlt : p < a + runLen cov len a) : cov p = true ∧ p < len :=
  runLen_all_cov_aux cov len (len - a) a p (Nat.le_refl _) hap hlt

theorem runLen_end_aux (cov : Nat → Bool) (len : Nat) :
    ∀ k a, len - a ≤ k →
      ¬(a + runLen cov len a < len ∧ cov (a + runLen cov len a) = true) := by
  intro k
  induction k with
  | zero =>
    intro a hk
    unfold runLen
    rw [dif_neg (by omega)]
    intro hcon
    exact absurd hcon.1 (by omega)
  | succ k ih =>
    intro a hk
    unfold runLen
    by_cases h : a < len ∧ cov a = true
    · rw [dif_pos h]
      have := ih (a + 1) (by omega)
      have harr : a + (runLen cov len (a + 1) + 1) =
          (a + 1) + runLen cov len (a + 1) := by omega
      rw [harr]
      exact this
    · rw [dif_neg h]
      simpa using h

/-- A run stops only at the document end or at an uncovered position. -/
theorem runLen_end (cov : Nat → Bool) (len a : Nat) :
    ¬(a + runLen cov len a < len ∧ cov (a + runLen cov len a) = true) :=
  runLen_end_aux cov len (len - a) a (Nat.le_refl _)

theorem runLen_reaches_aux (cov : Nat → Bool) (len : Nat) :
    ∀ k a p, p - a ≤ k → a ≤ p → p < len →
      (∀ q, a ≤ q → q ≤ p → cov q = true) → p < a + runLen cov len a := by
  intro k
  induction k with
  | zero =>
    intro a p hk hap hlen hcov
    have ha : a = p := by omega
    subst ha
    unfold runLen
    rw [dif_pos ⟨hlen, hcov a (Nat.le_refl _) (Nat.le_refl _)⟩]
    omega
  | succ k ih =>
    intro a p hk hap hlen hcov
    rcases Nat.eq_or_lt_of_le hap with rfl | hap'
    · unfold runLen
      rw [dif_pos ⟨hlen, hcov a (Nat.le_refl _) (Nat.le_refl _)⟩]
      omega
    · unfold runLen
      rw [dif_pos ⟨by omega, hcov a (Nat.le_refl _) (by omega)⟩]
      have := ih (a + 1) p (by omega) (by omega) hlen
        (fun q h1 h2 => hcov q (by omega) h2)
      omega

/-- If `a..p` is entirely covered then the run starting at `a` extends
past `p`. -/
theorem runLen_reaches (cov : Nat → Bool) (len a p : Nat) (hap : a ≤ p)
    (hlen : p < len) (hcov : ∀ q, a ≤ q → q ≤ p → cov q = true) :
    p < a + runLen cov len a :=
  runLen_reaches_aux cov len (p - a) a p (Nat.le_refl _) hap hlen hcov

theorem mem_runStarts (cov : Nat → Bool) (len a : Nat) :
    a ∈ runStarts cov len ↔
      a < len ∧ cov a = true ∧ (a = 0 ∨ cov (a - 1) = false) := by
  simp only [runStarts, List.mem_filter, List.mem_range, Bool.and_eq_true,
    Bool.or_eq_true, decide_eq_true_eq, Bool.not_eq_true']

/-- The left end of the maximal run containing `p` (assuming `cov p`). -/
def findStart (cov : Nat → Bool) : Nat → Nat
  | 0 => 0
  | p + 1 => if cov p = true then findStart cov p else p + 1

theorem findStart_le (cov : Nat → Bool) (p : Nat) : findStart cov p ≤ p := by
  induction p with
  | zero => simp [findStart]
  | succ p ih =>
    unfold findStart
    split
    · omega
    · omega

theorem findStart_spec (cov : Nat → Bool) (len : Nat) :
    ∀ p, cov p = true → p < len →
      findStart cov p ∈ runStarts cov len ∧
      (∀ q, findStart cov p ≤ q → q ≤ p → cov q = true) := by
  intro p
  induction p with
  | zero =>
    intro hc hl
    refine ⟨(mem_runStarts cov len 0).mpr ⟨hl, by simpa [findStart] using hc, Or.inl rfl⟩, ?_⟩
    intro q h1 h2
    simpa [findStart, Nat.le_zero.mp h2] using hc
  | succ p ih =>
    intro hc hl
    by_cases hp : cov p = true
    · have ihp := ih hp (by omega)
      refine ⟨by simpa [findStart, hp] using ihp.1, ?_⟩
      intro q h1 h2
      rcases Nat.lt_or_ge q (p + 1) with hq | hq
      · exact ihp.2 q (by simpa [findStart, hp] using h1) (by omega)
      · have : q = p + 1 := by omega
        simpa [this] using hc
    · have hpf : cov p = false := by
        cases hcp : cov p
        · rfl
        · exact absurd hcp hp
      have hfs : findStart cov (p + 1) = p + 1 := by simp [findStart, hpf]
      rw [hfs]
      refine ⟨(mem_runStarts cov len (p + 1)).mpr
        ⟨hl, hc, Or.inr (by simpa using hpf)⟩, ?_⟩
      intro q h1 h2
      have : q = p + 1 := by omega
      simpa [this] using hc

/-- Every covered position lies inside some reported run. -/
theorem covered_mem_run (cov : Nat → Bool) (len p : Nat) (hl : p < len)
    (hc : cov p = true) :
    ∃ r ∈ normRuns cov len, r.1 ≤ p ∧ p < r.2 := by
  obtain ⟨hmem, hall⟩ := findStart_spec cov len p hc hl
  refine ⟨(findStart cov p, findStart cov p + runLen cov len (findStart cov p)),
    List.mem_map_of_mem _ hmem, findStart_le cov p, ?_⟩
  exact runLen_reaches cov len _ p (findStart_le cov p) hl
    (fun q h1 h2 => hall q h1 h2)

theorem mem_normRuns (cov : Nat → Bool) (len : Nat) (r : Range)
    (h : r ∈ normRuns cov len) :
    r.1 ∈ runStarts cov len ∧ r.2 = r.1 + runLen cov len r.1 := by
  simp only [normRuns, List.mem_map] at h
  obtain ⟨a, ha, rfl⟩ := h
  exact ⟨ha, rfl⟩

/-- `tag_ranges` coverage agrees with tag coverage on document positions. -/
theorem covers_normRuns (cov : Nat → Bool) (len p : Nat) (hl : p < len) :
    covers (normRuns cov len) p = cov p := by
  rw [bool_eq_iff]
  constructor
  · intro h
    simp only [covers, List.any_eq_true, inRange, Bool.and_eq_true,
      decide_eq_true_eq] at h
    obtain ⟨r, hr, h1, h2⟩ := h
    obtain ⟨hs, he⟩ := mem_normRuns cov len r hr
    exact (runLen_all_cov cov len r.1 p h1 (he ▸ h2)).1
  · intro h
    obtain ⟨r, hr, h1, h2⟩ := covered_mem_run cov len p hl h
    simp only [covers, List.any_eq_true, inRange, Bool.and_eq_true,
      decide_eq_true_eq]
    exact ⟨r, hr, h1, h2⟩

/-- A rising edge of coverage strictly inside the document is the left end
of a reported run. -/
theorem changePoint_start (cov : Nat → Bool) (len c : Nat) (h1 : 1 ≤ c)
    (h2 : c < len) (hc : cov c = true) (hc' : cov (c - 1) = false) :
    ∃ r ∈ normRuns cov len, r.1 = c := by
  have : c ∈ runStarts cov len :=
    (mem_runStarts cov len c).mpr ⟨h2, hc, Or.inr hc'⟩
  exact ⟨(c, c + runLen cov len c), List.mem_map_of_mem _ this, rfl⟩

/-- A falling edge of coverage is the right end of a reported run. -/
theorem changePoint_end (cov : Nat → Bool) (len c : Nat) (h1 : 1 ≤ c)
    (h2 : c ≤ len) (hc : cov (c - 1) = true) (hc' : cov c = false) :
    ∃ r ∈ normRuns cov len, r.2 = c := by
  obtain ⟨r, hr, ha, hb⟩ := covered_mem_run cov len (c - 1) (by omega) hc
  obtain ⟨hs, he⟩ := mem_normRuns cov len r hr
  refine ⟨r, hr, ?_⟩
  rcases Nat.lt_or_ge c r.2 with hlt | hge
  · exfalso
    have := runLen_all_cov cov len r.1 c (by omega) (he ▸ hlt)
    rw [this.1] at hc'
    exact Bool.noConfusion hc'
  · omega

/-! ### The document: text plus tag state of the Tk editor

Tags are kept per kind (combined style tags, `color_fg_*`, `color_bg_*`,
and the three alignment tags), each kind as a creation-ordered list of
entries.  Relative order across kinds never matters because every reader
in the source filters `tag_names(...)` down to a single kind before taking
the first match.  Legacy plain `bold`/`italic`/... tags are not modelled:
no operation of this code base ever adds them. -/

structure Doc where
  text : List Char
  styleTags : List (Spec × List Range)
  fgTags : List (String × List Range)
  bgTags : List (String × List Range)
  alignLeft : List Range
  alignCenter : List Range
  alignRight : List Range
  defFamily : String
  defSize : Int
deriving DecidableEq, Repr

def docLen (d : Doc) : Nat := d.text.length

/-- The spec of untagged text: `FormatManager.default_font` /
`default_size` with all four flags off (the fallthrough of
`_get_effective_spec_at`). -/
def defaultSpec (d : Doc) : Spec :=
  ⟨d.defFamily, d.defSize, false, false, false, false⟩

/-- Resolution over a single tag-entry list: the first entry (in creation
order, as `tag_names(index)` reports) covering `p`. -/
def coversAt {α : Type} (ts : List (α × List Range)) (p : Nat) : Option α :=
  (ts.find? (fun t => covers t.2 p)).map (fun t => t.1)

/-- `_get_effective_spec_at`: the `_style_meta` spec of the first combined
style tag at the position, else the default spec. -/
def getEffectiveSpecAt (d : Doc) (p : Nat) : Spec :=
  match coversAt d.styleTags p with
  | some sp => sp
  | none => defaultSpec d

/-- `_snapshot_tag_ranges(tag, start, end)`: walk the maximal runs
reported by `tag_ranges`, drop runs disjoint from `[s, e]`, clip the rest. -/
def snapshotTagRanges (len : Nat) (rs : List Range) (s e : Nat) : List Range :=
  (normRuns (covers rs) len).filterMap (fun r =>
    if r.2 ≤ s || e ≤ r.1 then none
    else if (if s < r.1 then r.1 else s) < (if r.2 < e then r.2 else e) then
      some (if s < r.1 then r.1 else s, if r.2 < e then r.2 else e)
    else none)

/-- `_snapshot_style_ranges`: every combined style tag's clipped ranges,
keeping only tags that intersect the window. -/
def snapshotStyleRanges (d : Doc) (s e : Nat) : List (Spec × List Range) :=
  d.styleTags.filterMap (fun t =>
    let rr := snapshotTagRanges (docLen d) t.2 s e
    if rr.isEmpty then none else some (t.1, rr))

/-- `_style_boundaries_in_range`: the sorted set of positions where the
effective style may change: the window ends plus every clipped run
endpoint of every style tag. -/
def styleBoundaries (d : Doc) (s e : Nat) : List Nat :=
  ((s :: e :: d.styleTags.flatMap (fun t =>
    (snapshotTagRanges (docLen d) t.2 s e).flatMap
      (fun r => [r.1, r.2]))).dedup).insertionSort (· ≤ ·)

/-- Consecutive pairs of a list (`bounds[i], bounds[i+1]`). -/
def consecPairs (l : List Nat) : List (Nat × Nat) := l.zip l.tail

/-- `_iter_style_segments`: consecutive boundary pairs with the effective
spec sampled at each segment start. -/
def iterStyleSegments (d : Doc) (s e : Nat) : List (Nat × Nat × Spec) :=
  (consecPairs (styleBoundaries d s e)).filterMap (fun r =>
    if r.1 < r.2 then some (r.1, r.2, getEffectiveSpecAt d r.1) else none)

/-- `_remove_style_tags_in_range`: `tag_remove` the window from every
combined style tag. -/
def removeStyleTagsInRange (d : Doc) (s e : Nat) : Doc :=
  { d with styleTags :=
      d.styleTags.map (fun t => (t.1, removeRangeFromRanges t.2 s e)) }

/-- `tag_add` on the tag identified by key `k`, creating the tag (at the
end of the creation order) if it does not exist yet — the combination of
`_ensure_style_tag` and `tag_add`. -/
def tagAddEntry {α : Type} [DecidableEq α] (ts : List (α × List Range))
    (k : α) (r : Range) : List (α × List Range) :=
  match ts with
  | [] => [(k, [r])]
  | t :: rest =>
    if t.1 = k then (t.1, t.2 ++ [r]) :: rest else t :: tagAddEntry rest k r

def addStyleTag (d : Doc) (sp : Spec) (a b : Nat) : Doc :=
  { d with styleTags := tagAddEntry d.styleTags sp (a, b) }

/-- One record of the formatting undo/redo stacks: the two closures stored
by `_push_fmt_action`. -/
structure FmtAction where
  undo : Doc → Doc
  redo : Doc → Doc

/-- The `_restore(snapshot)` closure of `toggle_format`: clear style tags
in the window, re-add every snapshotted range. -/
def restoreStyleSnapshot (s e : Nat) (snap : List (Spec × List Range))
    (d : Doc) : Doc :=
  snap.foldl (fun dd t => t.2.foldl
      (fun dd2 r => addStyleTag dd2 t.1 r.1 r.2) dd)
    (removeStyleTagsInRange d s e)

/-- `toggle_format` with a non-empty selection `[s, e)`: snapshot, split
into uniform segments, clear style tags once, then re-apply each segment
with only the targeted flag flipped; returns the new document and the
undo/redo record that is pushed. -/
def toggleFormatSel (d : Doc) (flag : StyleFlag) (s e : Nat) :
    Doc × FmtAction :=
  let before := snapshotStyleRanges d s e
  let segs := iterStyleSegments d s e
  let d1 := removeStyleTagsInRange d s e
  let d2 := segs.foldl
    (fun dd sg => addStyleTag dd (flipFlag flag sg.2.2) sg.1 sg.2.1) d1
  let after := snapshotStyleRanges d2 s e
  (d2, ⟨restoreStyleSnapshot s e before, restoreStyleSnapshot s e after⟩)

/-- The document part of a selection toggle. -/
def toggleDoc (d : Doc) (flag : StyleFlag) (s e : Nat) : Doc :=
  (toggleFormatSel d flag s e).1

/-! ### Properties of boundary lists and segments -/

theorem consecPairs_cons₂ (x y : Nat) (rest : List Nat) :
    consecPairs (x :: y :: rest) = (x, y) :: consecPairs (y :: rest) := rfl

theorem mem_of_mem_consecPairs {l : List Nat} {a b : Nat}
    (h : (a, b) ∈ consecPairs l) : a ∈ l ∧ b ∈ l := by
  unfold consecPairs at h
  have := List.of_mem_zip h
  exact ⟨this.1, List.mem_of_mem_tail this.2⟩

/-- A sorted boundary list with elements on both sides of `p` has a
consecutive pair enclosing `p`. -/
theorem consecPairs_cover : ∀ {l : List Nat}, List.Sorted (· ≤ ·) l →
    ∀ {p a b : Nat}, a ∈ l → b ∈ l → a ≤ p → p < b →
    ∃ q ∈ consecPairs l, q.1 ≤ p ∧ p < q.2 := by
  intro l
  induction l with
  | nil => intro _ p a b ha; cases ha
  | cons x rest ih =>
    intro hs p a b ha hb hap hpb
    cases rest with
    | nil =>
      simp only [List.mem_singleton] at ha hb
      omega
    | cons y rest2 =>
      have hxy : x ≤ y := (List.sorted_cons.mp hs).1 y (by simp)
      by_cases hpy : p < y
      · refine ⟨(x, y), by simp [consecPairs_cons₂], ?_, hpy⟩
        rcases List.mem_cons.mp ha with rfl | ha2
        · exact hap
        · have : y ≤ a := by
            rcases List.mem_cons.mp ha2 with rfl | ha3
            · exact Nat.le_refl _
            · exact (List.sorted_cons.mp (List.sorted_cons.mp hs).2).1 a ha3
          omega
      · have hb' : b ∈ y :: rest2 := by
          rcases List.mem_cons.mp hb with rfl | hb2
          · omega
          · exact hb2
        obtain ⟨q, hq, hq1, hq2⟩ := ih (List.sorted_cons.mp hs).2
          (List.mem_cons_self y rest2) hb' (by omega) hpb
        exact ⟨q, by simp [consecPairs_cons₂, hq], hq1, hq2⟩

/-- No boundary-list element lies strictly inside a consecutive pair. -/
theorem consecPairs_not_between {l : List Nat}
    (hs : List.Sorted (· ≤ ·) l) {a b c : Nat}
    (hab : (a, b) ∈ consecPairs l) (hc : c ∈ l) : ¬(a < c ∧ c < b) := by
  induction l with
  | nil => cases hab
  | cons x rest ih =>
    cases rest with
    | nil => cases hab
    | cons y rest2 =>
      rw [consecPairs_cons₂] at hab
      rcases List.mem_cons.mp hab with heq | htail
      · have hax : a = x ∧ b = y := by simpa [Prod.ext_iff] using heq
        rcases List.mem_cons.mp hc with hcx | hc2
        · omega
        · have hyc : y ≤ c := by
            rcases List.mem_cons.mp hc2 with hcy | hc3
            · omega
            · exact (List.sorted_cons.mp (List.sorted_cons.mp hs).2).1 c hc3
          omega
      · rcases List.mem_cons.mp hc with hcx | hc2
        · have haf : a ∈ y :: rest2 := (mem_of_mem_consecPairs htail).1
          have hca : x ≤ a := (List.sorted_cons.mp hs).1 a haf
          omega
        · exact ih (List.sorted_cons.mp hs).2 htail hc2

/-- Two consecutive pairs that contain a common position are equal. -/
theorem consecPairs_unique {l : List Nat} (hs : List.Sorted (· ≤ ·) l)
    {a b c d p : Nat} (h1 : (a, b) ∈ consecPairs l)
    (h2 : (c, d) ∈ consecPairs l) (ha : a ≤ p) (hb : p < b) (hc : c ≤ p)
    (hd : p < d) : a = c ∧ b = d := by
  have hcl := mem_of_mem_consecPairs h2
  have hal := mem_of_mem_consecPairs h1
  have n1 := consecPairs_not_between hs h1 hcl.1
  have n2 := consecPairs_not_between hs h2 hal.1
  have hac : a = c := by omega
  subst hac
  have n3 := consecPairs_not_between hs h1 hcl.2
  have n4 := consecPairs_not_between hs h2 hal.2
  omega

theorem nodup_consecPairs {l : List Nat} (hn : l.Nodup) :
    (consecPairs l).Nodup := by
  induction l with
  | nil => simp [consecPairs]
  | cons x rest ih =>
    cases rest with
    | nil => simp [consecPairs]
    | cons y rest2 =>
      rw [consecPairs_cons₂]
      refine List.Nodup.cons ?_ (ih (List.nodup_cons.mp hn).2)
      intro hmem
      have : x ∈ y :: rest2 := (mem_of_mem_consecPairs hmem).1
      exact (List.nodup_cons.mp hn).1 this

theorem sorted_styleBoundaries (d : Doc) (s e : Nat) :
    List.Sorted (· ≤ ·) (styleBoundaries d s e) :=
  List.sorted_insertionSort (· ≤ ·) _

theorem nodup_styleBoundaries (d : Doc) (s e : Nat) :
    (styleBoundaries d s e).Nodup :=
  (List.perm_insertionSort (· ≤ ·) _).nodup_iff.mpr (List.nodup_dedup _)

theorem mem_styleBoundaries_iff (d : Doc) (s e x : Nat) :
    x ∈ styleBoundaries d s e ↔
      (x = s ∨ x = e ∨ ∃ t ∈ d.styleTags,
        ∃ r ∈ snapshotTagRanges (docLen d) t.2 s e, x = r.1 ∨ x = r.2) := by
  unfold styleBoundaries
  rw [List.mem_insertionSort, List.mem_dedup]
  simp only [List.mem_cons, List.mem_flatMap, List.not_mem_nil, or_false]

theorem mem_snapshotTagRanges_bounds {len : Nat} {rs : List Range}
    {s e : Nat} {r : Range} (h : r ∈ snapshotTagRanges len rs s e) :
    s ≤ r.1 ∧ r.1 < r.2 ∧ r.2 ≤ e := by
  unfold snapshotTagRanges at h
  obtain ⟨rr, _, hsome⟩ := List.mem_filterMap.mp h
  by_cases h1 : (decide (rr.2 ≤ s) || decide (e ≤ rr.1)) = true
  · rw [if_pos h1] at hsome
    cases hsome
  · rw [if_neg h1] at hsome
    by_cases h2 : (if s < rr.1 then rr.1 else s) < (if rr.2 < e then rr.2 else e)
    · rw [if_pos h2] at hsome
      have hr : r = (if s < rr.1 then rr.1 else s, if rr.2 < e then rr.2 else e) := by
        injection hsome with hh
        exact hh.symm
      subst hr
      refine ⟨by dsimp only; split <;> omega, by dsimp only; exact h2, by dsimp only; split <;> omega⟩
    · rw [if_neg h2] at hsome
      cases hsome

theorem mem_styleBoundaries_bounds {d : Doc} {s e : Nat} (hse : s ≤ e)
    {x : Nat} (hx : x ∈ styleBoundaries d s e) : s ≤ x ∧ x ≤ e := by
  rcases (mem_styleBoundaries_iff d s e x).mp hx with rfl | rfl | ⟨t, _, r, hr, hx⟩
  · omega
  · omega
  · have := mem_snapshotTagRanges_bounds hr
    rcases hx with rfl | rfl <;> omega

theorem s_mem_styleBoundaries (d : Doc) (s e : Nat) :
    s ∈ styleBoundaries d s e :=
  (mem_styleBoundaries_iff d s e s).mpr (Or.inl rfl)

theorem e_mem_styleBoundaries (d : Doc) (s e : Nat) :
    e ∈ styleBoundaries d s e :=
  (mem_styleBoundaries_iff d s e e).mpr (Or.inr (Or.inl rfl))

theorem runLen_pos (cov : Nat → Bool) (len a : Nat) (h1 : a < len)
    (h2 : cov a = true) : 0 < runLen cov len a := by
  unfold runLen
  rw [dif_pos ⟨h1, h2⟩]
  omega

/-- A maximal-run endpoint strictly inside the window survives clipping:
some clipped snapshot range has it as an endpoint. -/
theorem snapshot_of_run_endpoint {len : Nat} {rs : List Range} {s e c : Nat}
    (hsc : s < c) (hce : c < e) {rr : Range}
    (hrr : rr ∈ normRuns (covers rs) len) (hend : rr.1 = c ∨ rr.2 = c) :
    ∃ r ∈ snapshotTagRanges len rs s e, r.1 = c ∨ r.2 = c := by
  obtain ⟨hstart, hlen2⟩ := mem_normRuns _ _ _ hrr
  have hne : rr.1 < rr.2 := by
    have h1 := (mem_runStarts _ _ _).mp hstart
    have := runLen_pos (covers rs) len rr.1 h1.1 h1.2.1
    omega
  rcases hend with hc1 | hc2
  · refine ⟨(c, if rr.2 < e then rr.2 else e), ?_, Or.inl rfl⟩
    unfold snapshotTagRanges
    refine List.mem_filterMap.mpr ⟨rr, hrr, ?_⟩
    rw [if_neg (by simp only [Bool.or_eq_true, decide_eq_true_eq]; omega)]
    have hs' : (if s < rr.1 then rr.1 else s) = c := by
      rw [hc1, if_pos hsc]
    rw [hs', if_pos (by split <;> omega)]
  · refine ⟨(if s < rr.1 then rr.1 else s, c), ?_, Or.inr rfl⟩
    unfold snapshotTagRanges
    refine List.mem_filterMap.mpr ⟨rr, hrr, ?_⟩
    rw [if_neg (by simp only [Bool.or_eq_true, decide_eq_true_eq]; omega)]
    have he' : (if rr.2 < e then rr.2 else e) = c := by
      rw [hc2, if_pos hce]
    rw [he', if_pos (by split <;> omega)]

/-- Inside one segment of `_style_boundaries_in_range`, every style tag's
coverage is constant. -/
theorem covers_const_on_segment {d : Doc} {s e : Nat} (hse : s ≤ e)
    (hle : e ≤ docLen d) {x y : Nat}
    (hxy : (x, y) ∈ consecPairs (styleBoundaries d s e))
    {t : Spec × List Range} (ht : t ∈ d.styleTags) :
    ∀ p q, x ≤ p → p < y → x ≤ q → q < y →
      covers t.2 p = covers t.2 q := by
  have hxm := (mem_of_mem_consecPairs hxy).1
  have hym := (mem_of_mem_consecPairs hxy).2
  have hxb := mem_styleBoundaries_bounds hse hxm
  have hyb := mem_styleBoundaries_bounds hse hym
  have step : ∀ p, x ≤ p → p + 1 < y →
      covers t.2 p = covers t.2 (p + 1) := by
    intro p hp1 hp2
    by_contra hne
    have hcases : (covers t.2 p = false ∧ covers t.2 (p + 1) = true) ∨
        (covers t.2 p = true ∧ covers t.2 (p + 1) = false) := by
      cases h1 : covers t.2 p <;> cases h2 : covers t.2 (p + 1) <;>
        simp [h1, h2] at hne ⊢
    have hcb : (p + 1) ∈ styleBoundaries d s e := by
      rcases hcases with ⟨hf, htr⟩ | ⟨htr, hf⟩
      · obtain ⟨rr, hrr, hc⟩ := changePoint_start (covers t.2) (docLen d)
          (p + 1) (by omega) (by omega) htr (by simpa using hf)
        obtain ⟨r, hr, hrc⟩ := snapshot_of_run_endpoint
          (show s < p + 1 by omega) (show p + 1 < e by omega) hrr
          (Or.inl hc)
        exact (mem_styleBoundaries_iff d s e (p + 1)).mpr
          (Or.inr (Or.inr ⟨t, ht, r, hr, by omega⟩))
      · obtain ⟨rr, hrr, hc⟩ := changePoint_end (covers t.2) (docLen d)
          (p + 1) (by omega) (by omega) (by simpa using htr) hf
        obtain ⟨r, hr, hrc⟩ := snapshot_of_run_endpoint
          (show s < p + 1 by omega) (show p + 1 < e by omega) hrr
          (Or.inr hc)
        exact (mem_styleBoundaries_iff d s e (p + 1)).mpr
          (Or.inr (Or.inr ⟨t, ht, r, hr, by omega⟩))
    exact consecPairs_not_between (sorted_styleBoundaries d s e) hxy hcb
      ⟨by omega, by omega⟩
  have walk : ∀ n p, x ≤ p → p + n < y →
      covers t.2 p = covers t.2 (p + n) := by
    intro n
    induction n with
    | zero => intro p _ _; rfl
    | succ n ih =>
      intro p hp1 hp2
      have := ih p hp1 (by omega)
      rw [this]
      have hst := step (p + n) (by omega) (by omega)
      have harr : p + n + 1 = p + (n + 1) := by omega
      rw [harr] at hst
      exact hst
  intro p q hp1 hp2 hq1 hq2
  rcases Nat.le_total p q with h | h
  · have := walk (q - p) p hp1 (by omega)
    simpa [Nat.add_sub_cancel' h] using this
  · have := walk (p - q) q hq1 (by omega)
    rw [Nat.add_sub_cancel' h] at this
    exact this.symm

theorem coversAt_congr {α : Type} (ts : List (α × List Range)) (p q : Nat)
    (h : ∀ t ∈ ts, covers t.2 p = covers t.2 q) :
    coversAt ts p = coversAt ts q := by
  induction ts with
  | nil => rfl
  | cons t rest ih =>
    unfold coversAt
    rw [List.find?_cons, List.find?_cons, h t (by simp)]
    split
    · rfl
    · exact ih (fun t' ht' => h t' (by simp [ht']))

/-- The effective spec is constant inside one segment. -/
theorem resolve_const_on_segment {d : Doc} {s e : Nat} (hse : s ≤ e)
    (hle : e ≤ docLen d) {x y : Nat}
    (hxy : (x, y) ∈ consecPairs (styleBoundaries d s e)) {p q : Nat}
    (hp1 : x ≤ p) (hp2 : p < y) (hq1 : x ≤ q) (hq2 : q < y) :
    getEffectiveSpecAt d p = getEffectiveSpecAt d q := by
  unfold getEffectiveSpecAt
  rw [coversAt_congr d.styleTags p q
    (fun t ht => covers_const_on_segment hse hle hxy ht p q hp1 hp2 hq1 hq2)]

/-! ### Effect of `toggle_format` on resolution -/

theorem coversAt_cons {α : Type} (t : α × List Range)
    (rest : List (α × List Range)) (p : Nat) :
    coversAt (t :: rest) p =
      if covers t.2 p = true then some t.1 else coversAt rest p := by
  unfold coversAt
  by_cases h : covers t.2 p = true
  · rw [@List.find?_cons_of_pos _ (fun x => covers x.2 p) t rest h, if_pos h]
    rfl
  · rw [@List.find?_cons_of_neg _ (fun x => covers x.2 p) t rest
      (by simpa using h), if_neg h]

theorem coversAt_tagAddEntry_notin {α : Type} [DecidableEq α]
    (ts : List (α × List Range)) (k : α) (r : Range) (p : Nat)
    (hni : inRange r p = false) :
    coversAt (tagAddEntry ts k r) p = coversAt ts p := by
  induction ts with
  | nil =>
    unfold tagAddEntry
    rw [coversAt_cons]
    have : covers [r] p = false := by simp [covers, hni]
    rw [if_neg (by simp [this])]
  | cons t rest ih =>
    unfold tagAddEntry
    by_cases hk : t.1 = k
    · rw [if_pos hk, coversAt_cons, coversAt_cons]
      have : covers (t.2 ++ [r]) p = covers t.2 p := by
        rw [covers_append]
        simp [covers, hni]
      rw [this]
    · rw [if_neg hk, coversAt_cons, coversAt_cons, ih]

theorem coversAt_tagAddEntry_mem {α : Type} [DecidableEq α]
    (ts : List (α × List Range)) (k : α) (r : Range) (p : Nat)
    (hin : inRange r p = true) (h0 : coversAt ts p = none) :
    coversAt (tagAddEntry ts k r) p = some k := by
  induction ts with
  | nil =>
    unfold tagAddEntry
    rw [coversAt_cons]
    have : covers [r] p = true := by simp [covers, hin]
    rw [if_pos this]
  | cons t rest ih =>
    rw [coversAt_cons] at h0
    have hcov : ¬(covers t.2 p = true) := by
      intro hc
      rw [if_pos hc] at h0
      cases h0
    have hrest : coversAt rest p = none := by rwa [if_neg hcov] at h0
    unfold tagAddEntry
    by_cases hk : t.1 = k
    · rw [if_pos hk, coversAt_cons]
      have : covers (t.2 ++ [r]) p = true := by
        rw [covers_append]
        simp [covers, hin]
      rw [if_pos this, hk]
    · rw [if_neg hk, coversAt_cons, if_neg hcov]
      exact ih hrest

theorem coversAt_removeMap_inside {α : Type} (ts : List (α × List Range))
    (s e p : Nat) (h1 : s ≤ p) (h2 : p < e) :
    coversAt (ts.map (fun t => (t.1, removeRangeFromRanges t.2 s e))) p =
      none := by
  induction ts with
  | nil => rfl
  | cons t rest ih =>
    rw [List.map_cons, coversAt_cons]
    have : covers (removeRangeFromRanges t.2 s e) p = false := by
      rw [covers_removeRangeFromRanges]
      simp [h1, h2]
    rw [if_neg (by simp [this])]
    exact ih

theorem coversAt_removeMap_outside {α : Type} (ts : List (α × List Range))
    (s e p : Nat) (h : p < s ∨ e ≤ p) :
    coversAt (ts.map (fun t => (t.1, removeRangeFromRanges t.2 s e))) p =
      coversAt ts p := by
  induction ts with
  | nil => rfl
  | cons t rest ih =>
    rw [List.map_cons, coversAt_cons, coversAt_cons]
    have heq : covers (removeRangeFromRanges t.2 s e) p = covers t.2 p := by
      rw [covers_removeRangeFromRanges]
      have : (decide (s ≤ p) && decide (p < e)) = false := by
        rcases h with h | h <;> simp <;> omega
      rw [this]
      simp
    rw [heq, ih]

/-- The per-segment re-apply loop of `toggle_format`, at the tag-list
level. -/
def addSegsTags (flag : StyleFlag) (segs : List (Nat × Nat × Spec))
    (ts : List (Spec × List Range)) : List (Spec × List Range) :=
  segs.foldl
    (fun ts sg => tagAddEntry ts (flipFlag flag sg.2.2) (sg.1, sg.2.1)) ts

theorem foldAddSegs_eq (flag : StyleFlag) (segs : List (Nat × Nat × Spec))
    (dd : Doc) :
    (segs.foldl
        (fun dd sg => addStyleTag dd (flipFlag flag sg.2.2) sg.1 sg.2.1)
        dd) =
      { dd with styleTags := addSegsTags flag segs dd.styleTags } := by
  induction segs generalizing dd with
  | nil => rfl
  | cons sg rest ih =>
    rw [List.foldl_cons, ih]
    rfl

theorem coversAt_addSegsTags_notin (flag : StyleFlag)
    (segs : List (Nat × Nat × Spec)) (ts : List (Spec × List Range))
    (p : Nat) (h : ∀ sg ∈ segs, inRange (sg.1, sg.2.1) p = false) :
    coversAt (addSegsTags flag segs ts) p = coversAt ts p := by
  induction segs generalizing ts with
  | nil => rfl
  | cons sg rest ih =>
    unfold addSegsTags
    rw [List.foldl_cons]
    rw [show (rest.foldl
      (fun ts sg => tagAddEntry ts (flipFlag flag sg.2.2) (sg.1, sg.2.1))
      (tagAddEntry ts (flipFlag flag sg.2.2) (sg.1, sg.2.1))) =
        addSegsTags flag rest
          (tagAddEntry ts (flipFlag flag sg.2.2) (sg.1, sg.2.1)) from rfl]
    rw [ih _ (fun sg' h' => h sg' (List.mem_cons_of_mem _ h'))]
    exact coversAt_tagAddEntry_notin ts _ _ p (h sg (List.mem_cons_self _ _))

theorem coversAt_addSegsTags_mem (flag : StyleFlag) (p : Nat)
    (sgStar : Nat × Nat × Spec)
    (hp : inRange (sgStar.1, sgStar.2.1) p = true) :
    ∀ (segs : List (Nat × Nat × Spec)) (ts : List (Spec × List Range)),
      segs.Nodup → sgStar ∈ segs →
      (∀ sg ∈ segs, sg ≠ sgStar → inRange (sg.1, sg.2.1) p = false) →
      coversAt ts p = none →
      coversAt (addSegsTags flag segs ts) p =
        some (flipFlag flag sgStar.2.2) := by
  intro segs
  induction segs with
  | nil =>
    intro ts _ hmem
    cases hmem
  | cons sg rest ih =>
    intro ts hnd hmem hdisj h0
    unfold addSegsTags
    rw [List.foldl_cons]
    rw [show (rest.foldl
      (fun ts sg => tagAddEntry ts (flipFlag flag sg.2.2) (sg.1, sg.2.1))
      (tagAddEntry ts (flipFlag flag sg.2.2) (sg.1, sg.2.1))) =
        addSegsTags flag rest
          (tagAddEntry ts (flipFlag flag sg.2.2) (sg.1, sg.2.1)) from rfl]
    by_cases hs : sg = sgStar
    · subst hs
      have h1 : coversAt (tagAddEntry ts (flipFlag flag sg.2.2)
          (sg.1, sg.2.1)) p = some (flipFlag flag sg.2.2) :=
        coversAt_tagAddEntry_mem ts _ _ p hp h0
      have hrest : ∀ sg' ∈ rest, inRange (sg'.1, sg'.2.1) p = false := by
        intro sg' h'
        refine hdisj sg' (List.mem_cons_of_mem _ h') (fun he => ?_)
        exact (List.nodup_cons.mp hnd).1 (he ▸ h')
      rw [coversAt_addSegsTags_notin flag rest _ p hrest, h1]
    · have h1 : coversAt (tagAddEntry ts (flipFlag flag sg.2.2)
          (sg.1, sg.2.1)) p = none := by
        rw [coversAt_tagAddEntry_notin ts _ _ p
          (hdisj sg (List.mem_cons_self _ _) hs)]
        exact h0
      have hmem' : sgStar ∈ rest := by
        rcases List.mem_cons.mp hmem with h | h
        · exact absurd h.symm hs
        · exact h
      exact ih _ (List.nodup_cons.mp hnd).2 hmem'
        (fun sg' h' hne => hdisj sg' (List.mem_cons_of_mem _ h') hne) h1

theorem nodup_iterStyleSegments (d : Doc) (s e : Nat) :
    (iterStyleSegments d s e).Nodup := by
  unfold iterStyleSegments
  refine List.Nodup.filterMap ?_
    (nodup_consecPairs (nodup_styleBoundaries d s e))
  intro a a' b hb hb'
  by_cases h : a.1 < a.2
  · rw [if_pos h] at hb
    by_cases h' : a'.1 < a'.2
    · rw [if_pos h'] at hb'
      simp only [Option.mem_def, Option.some.injEq] at hb hb'
      have : (a.1, a.2) = (a'.1, a'.2) := by
        rw [← hb] at hb'
        injection hb' with e1 e2
        injection e2 with e2 e3
        rw [e1, e2]
      calc a = (a.1, a.2) := rfl
        _ = (a'.1, a'.2) := this
        _ = a' := rfl
    · rw [if_neg h'] at hb'
      cases hb'
  · rw [if_neg h] at hb
    cases hb

theorem mem_iterStyleSegments_iff (d : Doc) (s e : Nat)
    (sg : Nat × Nat × Spec) :
    sg ∈ iterStyleSegments d s e ↔
      (sg.1, sg.2.1) ∈ consecPairs (styleBoundaries d s e) ∧
      sg.1 < sg.2.1 ∧ sg.2.2 = getEffectiveSpecAt d sg.1 := by
  unfold iterStyleSegments
  rw [List.mem_filterMap]
  constructor
  · rintro ⟨r, hr, hsome⟩
    by_cases h : r.1 < r.2
    · rw [if_pos h] at hsome
      injection hsome with hsg
      subst hsg
      exact ⟨by simpa using hr, h, rfl⟩
    · rw [if_neg h] at hsome
      cases hsome
  · rintro ⟨hmem, hlt, hspec⟩
    refine ⟨(sg.1, sg.2.1), hmem, ?_⟩
    rw [if_pos hlt]
    obtain ⟨a, b, c⟩ := sg
    simp only at hspec ⊢
    rw [hspec]

theorem mem_iterStyleSegments_bounds {d : Doc} {s e : Nat} (hse : s ≤ e)
    {sg : Nat × Nat × Spec} (h : sg ∈ iterStyleSegments d s e) :
    s ≤ sg.1 ∧ sg.2.1 ≤ e := by
  obtain ⟨hpair, _, _⟩ := (mem_iterStyleSegments_iff d s e sg).mp h
  have hm := mem_of_mem_consecPairs hpair
  exact ⟨(mem_styleBoundaries_bounds hse hm.1).1,
    (mem_styleBoundaries_bounds hse hm.2).2⟩

/-- The style-tag list of the toggled document. -/
def toggledTags (d : Doc) (flag : StyleFlag) (s e : Nat) :
    List (Spec × List Range) :=
  addSegsTags flag (iterStyleSegments d s e)
    (d.styleTags.map (fun t => (t.1, removeRangeFromRanges t.2 s e)))

/-- Normal form of the toggled document. -/
theorem toggleDoc_eq (d : Doc) (flag : StyleFlag) (s e : Nat) :
    toggleDoc d flag s e = { d with styleTags := toggledTags d flag s e } := by
  unfold toggleDoc toggleFormatSel toggledTags
  dsimp only
  rw [foldAddSegs_eq]
  rfl

theorem getEffectiveSpecAt_update (d : Doc) (ts : List (Spec × List Range))
    (p : Nat) :
    getEffectiveSpecAt { d with styleTags := ts } p =
      (match coversAt ts p with
       | some sp => sp
       | none => defaultSpec d) := rfl

/-- Inside the selection, `toggle_format` flips exactly the targeted flag
of the effective spec at every position. -/
theorem toggle_resolve_inside (d : Doc) (flag : StyleFlag) (s e : Nat)
    (hse : s ≤ e) (hle : e ≤ docLen d) (p : Nat) (hp1 : s ≤ p)
    (hp2 : p < e) :
    getEffectiveSpecAt (toggleDoc d flag s e) p =
      flipFlag flag (getEffectiveSpecAt d p) := by
  obtain ⟨q, hq, hq1, hq2⟩ := consecPairs_cover
    (sorted_styleBoundaries d s e) (s_mem_styleBoundaries d s e)
    (e_mem_styleBoundaries d s e) hp1 hp2
  have hqpair : (q.1, q.2) ∈ consecPairs (styleBoundaries d s e) := by
    simpa using hq
  have hmem : (q.1, q.2, getEffectiveSpecAt d q.1) ∈
      iterStyleSegments d s e :=
    (mem_iterStyleSegments_iff d s e _).mpr
      ⟨hqpair, show q.1 < q.2 by omega, rfl⟩
  have h0 : coversAt (d.styleTags.map
      (fun t => (t.1, removeRangeFromRanges t.2 s e))) p = none :=
    coversAt_removeMap_inside d.styleTags s e p hp1 hp2
  have hdisj : ∀ sg ∈ iterStyleSegments d s e,
      sg ≠ (q.1, q.2, getEffectiveSpecAt d q.1) →
      inRange (sg.1, sg.2.1) p = false := by
    intro sg hsg hne
    cases hin : inRange (sg.1, sg.2.1) p
    · rfl
    · exfalso
      have hin' : sg.1 ≤ p ∧ p < sg.2.1 := by
        simpa [inRange] using hin
      obtain ⟨hpair, hlt, hspec⟩ :=
        (mem_iterStyleSegments_iff d s e sg).mp hsg
      have := consecPairs_unique (sorted_styleBoundaries d s e) hpair
        hqpair hin'.1 hin'.2 hq1 hq2
      apply hne
      obtain ⟨a, b, c⟩ := sg
      simp only at hspec this ⊢
      rw [this.1, this.2, hspec, this.1]
  have hfold := coversAt_addSegsTags_mem flag p
    (q.1, q.2, getEffectiveSpecAt d q.1)
    (by simp only [inRange]; simp [hq1, hq2])
    (iterStyleSegments d s e)
    (d.styleTags.map (fun t => (t.1, removeRangeFromRanges t.2 s e)))
    (nodup_iterStyleSegments d s e) hmem hdisj h0
  have hfold' : coversAt (toggledTags d flag s e) p =
      some (flipFlag flag (getEffectiveSpecAt d q.1)) := hfold
  rw [toggleDoc_eq, getEffectiveSpecAt_update, hfold']
  have hconst := resolve_const_on_segment hse hle hqpair
    (Nat.le_refl q.1) (show q.1 < q.2 by omega) hq1 hq2
  rw [← hconst]

/-- Outside the selection, `toggle_format` leaves the effective spec
untouched. -/
theorem toggle_resolve_outside (d : Doc) (flag : StyleFlag) (s e : Nat)
    (hse : s ≤ e) (p : Nat) (hp : p < s ∨ e ≤ p) :
    getEffectiveSpecAt (toggleDoc d flag s e) p =
      getEffectiveSpecAt d p := by
  have h1 : coversAt (toggledTags d flag s e) p =
      coversAt (d.styleTags.map
        (fun t => (t.1, removeRangeFromRanges t.2 s e))) p := by
    refine coversAt_addSegsTags_notin flag _ _ p ?_
    intro sg hsg
    have hb := mem_iterStyleSegments_bounds hse hsg
    simp only [inRange]
    rcases hp with h | h <;> simp <;> omega
  rw [toggleDoc_eq, getEffectiveSpecAt_update, h1,
    coversAt_removeMap_outside d.styleTags s e p hp]
  rfl

theorem toggleDoc_text (d : Doc) (flag : StyleFlag) (s e : Nat) :
    (toggleDoc d flag s e).text = d.text := by
  rw [toggleDoc_eq]

theorem toggleDoc_docLen (d : Doc) (flag : StyleFlag) (s e : Nat) :
    docLen (toggleDoc d flag s e) = docLen d := by
  unfold docLen
  rw [toggleDoc_text]

theorem flipFlag_flipFlag (f : StyleFlag) (s : Spec) :
    flipFlag f (flipFlag f s) = s := by
  cases f <;> simp [flipFlag]

/-- Each pre-toggle segment ends up with exactly its own flag flipped. -/
theorem toggle_per_segment (d : Doc) (flag : StyleFlag) (s e : Nat)
    (hse : s ≤ e) (hle : e ≤ docLen d) (sg : Nat × Nat × Spec)
    (hsg : sg ∈ iterStyleSegments d s e) (p : Nat) (hp1 : sg.1 ≤ p)
    (hp2 : p < sg.2.1) :
    getEffectiveSpecAt (toggleDoc d flag s e) p = flipFlag flag sg.2.2 := by
  have hb := mem_iterStyleSegments_bounds hse hsg
  obtain ⟨hpair, hlt, hspec⟩ := (mem_iterStyleSegments_iff d s e sg).mp hsg
  rw [toggle_resolve_inside d flag s e hse hle p (by omega) (by omega)]
  rw [hspec, resolve_const_on_segment hse hle hpair (Nat.le_refl sg.1)
    (by omega) hp1 hp2]

/-- Toggling the same flag twice over the same selection restores the
effective spec at every position. -/
theorem toggle_double_resolve (d : Doc) (flag : StyleFlag) (s e : Nat)
    (hse : s ≤ e) (hle : e ≤ docLen d) (p : Nat) :
    getEffectiveSpecAt (toggleDoc (toggleDoc d flag s e) flag s e) p =
      getEffectiveSpecAt d p := by
  have hle2 : e ≤ docLen (toggleDoc d flag s e) := by
    rw [toggleDoc_docLen]
    exact hle
  by_cases hin : s ≤ p ∧ p < e
  · rw [toggle_resolve_inside _ flag s e hse hle2 p hin.1 hin.2,
      toggle_resolve_inside d flag s e hse hle p hin.1 hin.2,
      flipFlag_flipFlag]
  · have hout : p < s ∨ e ≤ p := by omega
    rw [toggle_resolve_outside _ flag s e hse p hout,
      toggle_resolve_outside d flag s e hse p hout]

/-! ### Alignment: `set_alignment`, `_apply_alignment_to_lines`,
`_get_line_align`

Alignment lives in the three Tk tags `left`/`center`/`right`.  Lines are
1-based as in Tk; `lineStartPos` is the absolute position of `"{ln}.0"`
and a line's span runs to `"{ln}.0 lineend+1c"` (the line break
included). -/

inductive Align where
  | left
  | center
  | right
deriving DecidableEq, Repr

def docLines (d : Doc) : List (List Char) := d.text.splitOn '\n'

def numLines (d : Doc) : Nat := (docLines d).length

/-- Absolute position of `"{ln}.0"` (1-based line number). -/
def lineStartPos (lines : List (List Char)) (ln : Nat) : Nat :=
  match ln, lines with
  | 0, _ => 0
  | 1, _ => 0
  | _ + 2, [] => 0
  | n + 2, l :: rest => l.length + 1 + lineStartPos rest (n + 1)

def lineLenAt (lines : List (List Char)) (ln : Nat) : Nat :=
  ((lines.get? (ln - 1)).map List.length).getD 0

/-- The span `["{ln}.0", "{ln}.0 lineend+1c")` that
`_apply_alignment_to_lines` rewrites. -/
def lineSpan (d : Doc) (ln : Nat) : Range :=
  (lineStartPos (docLines d) ln,
   lineStartPos (docLines d) ln + lineLenAt (docLines d) ln + 1)

/-- The ranges of one alignment tag. -/
def alignRanges (d : Doc) (a : Align) : List Range :=
  match a with
  | .left => d.alignLeft
  | .center => d.alignCenter
  | .right => d.alignRight

/-- `_get_line_align`: test the tags at `"{ln}.0"` in the fixed order
`left`, `center`, `right`. -/
def getLineAlign (d : Doc) (ln : Nat) : Option Align :=
  if covers d.alignLeft (lineStartPos (docLines d) ln) then some .left
  else if covers d.alignCenter (lineStartPos (docLines d) ln) then
    some .center
  else if covers d.alignRight (lineStartPos (docLines d) ln) then
    some .right
  else none

/-- How many of the three alignment tags cover a position. -/
def alignCoverCount (d : Doc) (p : Nat) : Nat :=
  (if covers d.alignLeft p then 1 else 0) +
  (if covers d.alignCenter p then 1 else 0) +
  (if covers d.alignRight p then 1 else 0)

/-- The per-line body of `_apply_alignment_to_lines`: remove all three
alignment tags over the line span, then add the requested one (if any)
over the whole span. -/
def applyAlignmentToLine (d : Doc) (al : Option Align) (ln : Nat) : Doc :=
  let sp := lineSpan d ln
  let d1 := { d with
    alignLeft := removeRangeFromRanges d.alignLeft sp.1 sp.2
    alignCenter := removeRangeFromRanges d.alignCenter sp.1 sp.2
    alignRight := removeRangeFromRanges d.alignRight sp.1 sp.2 }
  match al with
  | none => d1
  | some .left => { d1 with alignLeft := d1.alignLeft ++ [sp] }
  | some .center => { d1 with alignCenter := d1.alignCenter ++ [sp] }
  | some .right => { d1 with alignRight := d1.alignRight ++ [sp] }

/-- `_apply_alignment_to_lines(align, line_nos)`. -/
def applyAlignmentToLines (d : Doc) (al : Option Align) (lns : List Nat) :
    Doc :=
  lns.foldl (fun dd ln => applyAlignmentToLine dd al ln) d

/-- `set_alignment` over an already-computed list of line numbers: record
each line's prior alignment, set the new one uniformly, and push an
undo/redo pair (undo restores each line's individual prior value, redo
re-applies the alignment to the same lines). -/
def setAlignment (d : Doc) (al : Align) (lns : List Nat) :
    Doc × FmtAction :=
  let before := fun ln => getLineAlign d ln
  let d' := applyAlignmentToLines d (some al) lns
  (d',
   ⟨fun dd => lns.foldl (fun dd2 ln => applyAlignmentToLine dd2 (before ln) ln) dd,
    fun dd => applyAlignmentToLines dd (some al) lns⟩)

theorem applyAlignmentToLine_text (d : Doc) (al : Option Align) (ln : Nat) :
    (applyAlignmentToLine d al ln).text = d.text := by
  cases al with
  | none => rfl
  | some a => cases a <;> rfl

theorem applyAlignmentToLine_lineSpan (d : Doc) (al : Option Align)
    (ln ln' : Nat) :
    lineSpan (applyAlignmentToLine d al ln) ln' = lineSpan d ln' := by
  unfold lineSpan docLines
  rw [applyAlignmentToLine_text]

theorem applyAlignmentToLine_numLines (d : Doc) (al : Option Align)
    (ln : Nat) : numLines (applyAlignmentToLine d al ln) = numLines d := by
  unfold numLines docLines
  rw [applyAlignmentToLine_text]

theorem covers_applyAlignmentToLine_in (d : Doc) (al : Option Align)
    (ln : Nat) (X : Align) (p : Nat) (h1 : (lineSpan d ln).1 ≤ p)
    (h2 : p < (lineSpan d ln).2) :
    covers (alignRanges (applyAlignmentToLine d al ln) X) p =
      decide (al = some X) := by
  have hmid : (decide ((lineSpan d ln).1 ≤ p) &&
      decide (p < (lineSpan d ln).2)) = true := by simp [h1, h2]
  have hrem : ∀ rs, covers (removeRangeFromRanges rs (lineSpan d ln).1
      (lineSpan d ln).2) p = false := by
    intro rs
    rw [covers_removeRangeFromRanges, hmid]
    simp
  have hspan : inRange (lineSpan d ln) p = true := by
    simpa [inRange] using hmid
  rcases al with _ | a
  · cases X <;>
      (simp only [applyAlignmentToLine, alignRanges]; rw [hrem]; simp)
  · cases a <;> cases X <;>
      simp only [applyAlignmentToLine, alignRanges] <;>
      first
        | (rw [covers_append, hrem]; simp [covers, hspan])
        | (rw [hrem]; simp)

theorem covers_applyAlignmentToLine_out (d : Doc) (al : Option Align)
    (ln : Nat) (X : Align) (p : Nat)
    (h : p < (lineSpan d ln).1 ∨ (lineSpan d ln).2 ≤ p) :
    covers (alignRanges (applyAlignmentToLine d al ln) X) p =
      covers (alignRanges d X) p := by
  have hmid : (decide ((lineSpan d ln).1 ≤ p) &&
      decide (p < (lineSpan d ln).2)) = false := by
    rcases h with h | h <;> simp <;> omega
  have hrem : ∀ rs, covers (removeRangeFromRanges rs (lineSpan d ln).1
      (lineSpan d ln).2) p = covers rs p := by
    intro rs
    rw [covers_removeRangeFromRanges, hmid]
    simp
  have hsp : inRange (lineSpan d ln) p = false := by
    simpa [inRange] using hmid
  rcases al with _ | a
  · cases X <;>
      (simp only [applyAlignmentToLine, alignRanges]; rw [hrem])
  · cases a <;> cases X <;>
      simp only [applyAlignmentToLine, alignRanges] <;>
      first
        | (rw [covers_append, hrem]; simp [covers, hsp, alignRanges])
        | rw [hrem]

theorem covers_alignFold_out (f : Nat → Option Align) (X : Align) (p : Nat) :
    ∀ (lns : List Nat) (d : Doc),
      (∀ ln ∈ lns, p < (lineSpan d ln).1 ∨ (lineSpan d ln).2 ≤ p) →
      covers (alignRanges
        (lns.foldl (fun dd ln => applyAlignmentToLine dd (f ln) ln) d) X) p =
        covers (alignRanges d X) p := by
  intro lns
  induction lns with
  | nil => intro d _; rfl
  | cons ln rest ih =>
    intro d h
    rw [List.foldl_cons]
    rw [ih (applyAlignmentToLine d (f ln) ln) (fun ln' h' => by
      rw [applyAlignmentToLine_lineSpan]
      exact h ln' (List.mem_cons_of_mem _ h'))]
    exact covers_applyAlignmentToLine_out d (f ln) ln X p
      (h ln (List.mem_cons_self _ _))

theorem covers_alignFold_in (f : Nat → Option Align) (X : Align) (p : Nat)
    (lnStar : Nat) :
    ∀ (lns : List Nat) (d : Doc), lnStar ∈ lns →
      (lineSpan d lnStar).1 ≤ p → p < (lineSpan d lnStar).2 →
      (∀ ln ∈ lns, (lineSpan d ln).1 ≤ p → p < (lineSpan d ln).2 →
        ln = lnStar) →
      covers (alignRanges
        (lns.foldl (fun dd ln => applyAlignmentToLine dd (f ln) ln) d) X) p =
        decide (f lnStar = some X) := by
  intro lns
  induction lns with
  | nil => intro d hmem; cases hmem
  | cons ln rest ih =>
    intro d hmem hp1 hp2 huniq
    rw [List.foldl_cons]
    by_cases hmem2 : lnStar ∈ rest
    · refine ih (applyAlignmentToLine d (f ln) ln) hmem2 ?_ ?_ ?_
      · rw [applyAlignmentToLine_lineSpan]; exact hp1
      · rw [applyAlignmentToLine_lineSpan]; exact hp2
      · intro ln' h' ha hb
        rw [applyAlignmentToLine_lineSpan] at ha hb
        exact huniq ln' (List.mem_cons_of_mem _ h') ha hb
    · have hln : ln = lnStar := by
        rcases List.mem_cons.mp hmem with h | h
        · exact h.symm
        · exact absurd h hmem2
      subst hln
      have hout : ∀ ln' ∈ rest,
          p < (lineSpan (applyAlignmentToLine d (f ln) ln) ln').1 ∨
          (lineSpan (applyAlignmentToLine d (f ln) ln) ln').2 ≤ p := by
        intro ln' h'
        rw [applyAlignmentToLine_lineSpan]
        by_cases hc : (lineSpan d ln').1 ≤ p ∧ p < (lineSpan d ln').2
        · exact absurd (huniq ln' (List.mem_cons_of_mem _ h') hc.1 hc.2 ▸ h')
            hmem2
        · omega
      rw [covers_alignFold_out f X p rest _ hout]
      exact covers_applyAlignmentToLine_in d (f ln) ln X p hp1 hp2

theorem lineStartPos_nil (n : Nat) : lineStartPos [] n = 0 := by
  match n with
  | 0 => rfl
  | 1 => rfl
  | _ + 2 => rfl

theorem lineStartPos_mono (lines : List (List Char)) :
    ∀ {a b : Nat}, a ≤ b →
      lineStartPos lines a ≤ lineStartPos lines b := by
  induction lines with
  | nil => intro a b _; rw [lineStartPos_nil, lineStartPos_nil]
  | cons l rest ih =>
    intro a b h
    match a, b, h with
    | 0, b, _ => simp [lineStartPos]
    | 1, b, _ => simp [lineStartPos]
    | n + 2, m + 2, h =>
      have : lineStartPos rest (n + 1) ≤ lineStartPos rest (m + 1) :=
        ih (by omega)
      simp only [lineStartPos]
      omega

theorem lineStartPos_succ (lines : List (List Char)) :
    ∀ {ln : Nat}, 1 ≤ ln → ln ≤ lines.length →
      lineStartPos lines (ln + 1) =
        lineStartPos lines ln + lineLenAt lines ln + 1 := by
  induction lines with
  | nil =>
    intro ln h1 h2
    simp at h2
    omega
  | cons l rest ih =>
    intro ln h1 h2
    match ln, h1 with
    | 1, _ =>
      simp [lineStartPos, lineStartPos_nil, lineLenAt]
    | n + 2, _ =>
      have h2' : n + 1 ≤ rest.length := by
        simp at h2
        omega
      have hr := ih (by omega) h2'
      have hl : lineLenAt (l :: rest) (n + 2) = lineLenAt rest (n + 1) := by
        simp [lineLenAt]
      simp only [lineStartPos, hl]
      omega

theorem lineSpan_disjoint (d : Doc) {ln ln' : Nat} (h1 : 1 ≤ ln)
    (h2 : ln ≤ numLines d) (h1' : 1 ≤ ln') (h2' : ln' ≤ numLines d)
    (hne : ln ≠ ln') (p : Nat) (hp1 : (lineSpan d ln).1 ≤ p)
    (hp2 : p < (lineSpan d ln).2) :
    ¬((lineSpan d ln').1 ≤ p ∧ p < (lineSpan d ln').2) := by
  unfold lineSpan at *
  rcases Nat.lt_or_ge ln ln' with hlt | hge
  · have hs := lineStartPos_succ (docLines d) h1 h2
    have hm := lineStartPos_mono (docLines d) (show ln + 1 ≤ ln' by omega)
    omega
  · have hlt' : ln' < ln := by omega
    have hs := lineStartPos_succ (docLines d) h1' h2'
    have hm := lineStartPos_mono (docLines d) (show ln' + 1 ≤ ln by omega)
    omega

/-! ### Formatting undo/redo stacks and their arbitration with the
text-edit history (`FormatManager.__init__` state, `note_text_activity`,
`_note_format_activity`, `_push_fmt_action`, `can_undo_format`,
`can_redo_format`, `undo_format`, `redo_format`, and `App.safe_undo` /
`App.safe_redo`).

Python keeps the stacks as lists with the top at the end
(`append`/`pop()`); the model keeps the top at the head — the same stack
discipline.  The host text widget's own undo history (`edit_undo` /
`edit_redo`) is modelled as two plain stacks of document states. -/

inductive ActionKind where
  | text
  | format
deriving DecidableEq, Repr

structure FmtState where
  fmtUndoStack : List FmtAction
  fmtRedoStack : List FmtAction
  lastActionKind : ActionKind
  lastUndoKind : Option ActionKind

def noteTextActivity (fs : FmtState) : FmtState :=
  { fs with lastActionKind := .text, lastUndoKind := none }

def noteFormatActivity (fs : FmtState) : FmtState :=
  { fs with lastActionKind := .format, lastUndoKind := none }

/-- `_push_fmt_action`: a new action invalidates the redo history. -/
def pushFmtAction (fs : FmtState) (a : FmtAction) : FmtState :=
  { fs with fmtRedoStack := [], fmtUndoStack := a :: fs.fmtUndoStack }

def canUndoFormat (fs : FmtState) : Bool :=
  decide (fs.lastActionKind = .format) && !fs.fmtUndoStack.isEmpty

def canRedoFormat (fs : FmtState) : Bool :=
  decide (fs.lastUndoKind = some .format) && !fs.fmtRedoStack.isEmpty

/-- `undo_format`: pop, run the stored undo closure, move the record to
the redo stack, remember that the last undo was a formatting undo. -/
def undoFormat (fs : FmtState) (d : Doc) : FmtState × Doc × Bool :=
  if canUndoFormat fs = true then
    match fs.fmtUndoStack with
    | [] => (fs, d, false)
    | a :: rest =>
      ({ fs with
          fmtUndoStack := rest
          fmtRedoStack := a :: fs.fmtRedoStack
          lastUndoKind := some .format },
       a.undo d, true)
  else (fs, d, false)

/-- `redo_format`: pop the redo stack, run the stored redo closure, and
make formatting the last action again. -/
def redoFormat (fs : FmtState) (d : Doc) : FmtState × Doc × Bool :=
  if canRedoFormat fs = true then
    match fs.fmtRedoStack with
    | [] => (fs, d, false)
    | a :: rest =>
      ({ fs with
          fmtRedoStack := rest
          fmtUndoStack := a :: fs.fmtUndoStack
          lastActionKind := .format
          lastUndoKind := none },
       a.redo d, true)
  else (fs, d, false)

structure AppState where
  doc : Doc
  fmt : FmtState
  textUndoStack : List Doc
  textRedoStack : List Doc

/-- `App.safe_undo`: formatting undo first; otherwise delegate to the
text widget's `edit_undo` and mark text activity. -/
def safeUndo (st : AppState) : AppState :=
  let r := undoFormat st.fmt st.doc
  if r.2.2 = true then { st with doc := r.2.1, fmt := r.1 }
  else
    match st.textUndoStack with
    | prev :: rest =>
      { st with
          doc := prev
          textUndoStack := rest
          textRedoStack := st.doc :: st.textRedoStack
          fmt := noteTextActivity st.fmt }
    | [] => st

/-- `App.safe_redo`: formatting redo first; otherwise delegate to
`edit_redo`.  The boolean reports whether the formatting stack handled
it. -/
def safeRedo (st : AppState) : AppState × Bool :=
  let r := redoFormat st.fmt st.doc
  if r.2.2 = true then ({ st with doc := r.2.1, fmt := r.1 }, true)
  else
    match st.textRedoStack with
    | nxt :: rest =>
      ({ st with
          doc := nxt
          textRedoStack := rest
          textUndoStack := st.doc :: st.textUndoStack },
       false)
    | [] => (st, false)

/-- A plain text edit: the host widget records it on its own undo history
and the `<<Modified>>` binding calls `note_text_activity`. -/
def plainTextEdit (st : AppState) (f : Doc → Doc) : AppState :=
  { st with
      doc := f st.doc
      textUndoStack := st.doc :: st.textUndoStack
      textRedoStack := []
      fmt := noteTextActivity st.fmt }

/-- The `set_alignment` command at the application level:
`_note_format_activity`, apply, `_push_fmt_action`. -/
def doSetAlignment (st : AppState) (al : Align) (lns : List Nat) :
    AppState :=
  let fs1 := noteFormatActivity st.fmt
  let da := setAlignment st.doc al lns
  { st with doc := da.1, fmt := pushFmtAction fs1 da.2 }

/-! ### Bullet / numbered lists and Enter-key continuation
(`toggle_list`, `toggle_numbered_list`, `handle_return_key`)

These operate purely on line text.  A line is a `List Char` without the
trailing newline (`editor.get("{ln}.0", "{ln}.0 lineend")`), and a block
is the list of lines covered by the selection.  The source iterates lines
in reverse only so that editor index arithmetic stays valid; the per-line
edits are independent, so the model applies them linewise. -/

def bulletMarker : List Char := ['•', ' ']

/-- The characters the indentation loop skips (`txt[indent] in (" ", "\t")`). -/
def isIndentChar (c : Char) : Bool := c = ' ' || c = '\t'

/-- Python whitespace, as matched by `str.strip()` and `\s`. -/
def pyWhitespace (c : Char) : Bool :=
  c = ' ' || c = '\t' || c = '\n' || c = '\r' || c = '\x0B' || c = '\x0C'

/-- `txt.strip() == ""`. -/
def blankLine (l : List Char) : Bool := l.all pyWhitespace

def indentLen (l : List Char) : Nat := (l.takeWhile isIndentChar).length

def lineTail (l : List Char) : List Char := l.drop (indentLen l)

def startsWithChars (pre l : List Char) : Bool :=
  decide (l.take pre.length = pre)

/-- `tail.startswith(bullet)`. -/
def isBulletedLine (l : List Char) : Bool :=
  startsWithChars bulletMarker (lineTail l)

/-- Length of the match of `^(\d+)\.\s+` (0 when there is no match). -/
def numPrefixLen (l : List Char) : Nat :=
  let ds := l.takeWhile Char.isDigit
  if ds.isEmpty then 0
  else
    match l.drop ds.length with
    | '.' :: rest =>
      let ws := rest.takeWhile pyWhitespace
      if ws.isEmpty then 0 else ds.length + 1 + ws.length
    | _ => 0

def lineNumLen (l : List Char) : Nat := numPrefixLen (lineTail l)

/-- `int(m.group("num"))`: the numeric value of the leading digits. -/
def numValue (l : List Char) : Nat :=
  (l.takeWhile Char.isDigit).foldl (fun a c => a * 10 + (c.toNat - 48)) 0

/-- `editor.delete("{ls}+{i}c", "{ls}+{i}c+{n}c")` on one line. -/
def removeAt (l : List Char) (i n : Nat) : List Char :=
  l.take i ++ l.drop (i + n)

/-- `editor.insert("{ls}+{i}c", s)` on one line. -/
def insertAt (l : List Char) (i : Nat) (s : List Char) : List Char :=
  l.take i ++ s ++ l.drop i

/-- `"{n}. "`. -/
def numPrefixStr (n : Nat) : List Char := (Nat.repr n).data ++ ['.', ' ']

/-- `toggle_list`: if all non-blank lines of the block are bulleted,
remove the bullets; otherwise bullet every non-blank unbulleted line,
stripping an existing numbered prefix first. -/
def toggle_list (lines : List (List Char)) : List (List Char) :=
  let allBulleted := lines.all (fun l => blankLine l || isBulletedLine l)
  lines.map (fun l =>
    if allBulleted then
      if isBulletedLine l then removeAt l (indentLen l) bulletMarker.length
      else l
    else
      if blankLine l = false ∧ isBulletedLine l = false then
        insertAt (removeAt l (indentLen l) (lineNumLen l)) (indentLen l)
          bulletMarker
      else l)

/-- The per-line body of the numbering pass of `toggle_numbered_list`:
strip a bullet prefix, strip a numbered prefix, insert `"{n}. "`. -/
def applyNumber (l : List Char) (n : Nat) : List Char :=
  let ind := indentLen l
  let l1 := if isBulletedLine l then removeAt l ind bulletMarker.length
    else l
  let l2 := if 0 < lineNumLen l then removeAt l1 ind (lineNumLen l) else l1
  insertAt l2 ind (numPrefixStr n)

/-- Number the non-blank lines sequentially starting at `n` (the stable
two-pass numbering of `toggle_numbered_list`). -/
def numberNonBlank (lines : List (List Char)) (n : Nat) :
    List (List Char) :=
  match lines with
  | [] => []
  | l :: rest =>
    if blankLine l then l :: numberNonBlank rest n
    else applyNumber l n :: numberNonBlank rest (n + 1)

/-- `toggle_numbered_list`: if all non-blank lines are numbered, strip
the numbers; otherwise renumber all non-blank lines sequentially from 1. -/
def toggle_numbered_list (lines : List (List Char)) : List (List Char) :=
  let allNumbered := lines.all
    (fun l => blankLine l || decide (0 < lineNumLen l))
  if allNumbered then
    lines.map (fun l =>
      if blankLine l then l
      else if lineNumLen l = 0 then l
      else removeAt l (indentLen l) (lineNumLen l))
  else numberNonBlank lines 1

/-- `handle_return_key` on the current line with the caret at column
`caret`: returns `none` when the line is neither a bullet nor a numbered
item (Tk's default newline handling applies), otherwise
`some (newCurrentLine, newNextLine)`. -/
def handleReturnKey (line : List Char) (caret : Nat) :
    Option (List Char × List Char) :=
  let ind := indentLen line
  let indStr := line.take ind
  let tail := line.drop ind
  if startsWithChars bulletMarker tail then
    if blankLine (tail.drop bulletMarker.length) &&
        decide (line.length ≤ caret) then
      some (removeAt line ind bulletMarker.length, [])
    else
      some (line.take caret, indStr ++ bulletMarker ++ line.drop caret)
  else if 0 < numPrefixLen tail then
    if blankLine (tail.drop (numPrefixLen tail)) &&
        decide (line.length ≤ caret) then
      some (removeAt line ind (numPrefixLen tail), [])
    else
      some (line.take caret,
        indStr ++ numPrefixStr (numValue tail + 1) ++ line.drop caret)
  else none

/-- The number of non-blank lines of a block (the count that drives the
sequential numbering of `toggle_numbered_list`). -/
def nonBlankCount : List (List Char) → Nat
  | [] => 0
  | l :: rest => (if blankLine l then 0 else 1) + nonBlankCount rest

/-! ### Typing-mode formatting (`toggle_format` without a selection,
`_on_keypress_capture_insert` / `_apply_typing_to_newly_inserted`) -/

structure PwpPayload where
  version : Int
  text : List Char
  styleRecs : List (Spec × List Range)
  fgRecs : List (String × List Range)
  bgRecs : List (String × List Range)
  alignRecs : List (Align × List Range)
deriving DecidableEq, Repr

def saveTagRecs {α : Type} (ts : List (α × List Range)) (len : Nat) :
    List (α × List Range) :=
  ts.filterMap (fun t =>
    if (normRuns (covers t.2) len).isEmpty then none
    else some (t.1, normRuns (covers t.2) len))

/-- `_save_pwp` without the file write: collect every tag's maximal runs,
skipping rangeless tags. -/
def savePwp (d : Doc) : PwpPayload :=
  { version := 1
    text := d.text
    styleRecs := saveTagRecs d.styleTags (docLen d)
    fgRecs := saveTagRecs d.fgTags (docLen d)
    bgRecs := saveTagRecs d.bgTags (docLen d)
    alignRecs := ([Align.left, Align.center, Align.right]).filterMap
      (fun a =>
        if (normRuns (covers (alignRanges d a)) (docLen d)).isEmpty then none
        else some (a, normRuns (covers (alignRanges d a)) (docLen d))) }

/-- `_set_editor_content`: delete all text (which drops every tag's
coverage, while the tags themselves keep existing) and insert the new
text untagged. -/
def clearAllRanges (d : Doc) (text : List Char) : Doc :=
  { d with
      text := text
      styleTags := d.styleTags.map (fun t => (t.1, ([] : List Range)))
      fgTags := d.fgTags.map (fun t => (t.1, ([] : List Range)))
      bgTags := d.bgTags.map (fun t => (t.1, ([] : List Range)))
      alignLeft := []
      alignCenter := []
      alignRight := [] }

/-- `tag_configure` on a possibly new tag: create it (with no ranges, at
the end of the creation order) when it does not exist. -/
def ensureEntry {α : Type} [DecidableEq α] (ts : List (α × List Range))
    (k : α) : List (α × List Range) :=
  if ts.any (fun t => t.1 = k) then ts else ts ++ [(k, [])]

/-- The range-restoring loop of `_open_pwp`: `tag_add` every saved range
of every record. -/
def loadTagRecs {α : Type} [DecidableEq α]
    (recs : List (α × List Range)) (ts : List (α × List Range)) :
    List (α × List Range) :=
  recs.foldl (fun ts r => r.2.foldl (fun ts2 rg => tagAddEntry ts2 r.1 rg) ts)
    ts

def alignRecRanges (pl : PwpPayload) (a : Align) : List Range :=
  (pl.alignRecs.filter (fun r => r.1 = a)).flatMap (fun r => r.2)

/-- The mutation part of `_open_pwp` (runs only after the version check
passed): set the text, re-configure (= ensure) every saved tag, then
re-add all saved ranges. -/
def loadPayload (pl : PwpPayload) (d : Doc) : Doc :=
  let d1 := clearAllRanges d pl.text
  let d2 := { d1 with
      styleTags := pl.styleRecs.foldl
        (fun ts (r : Spec × List Range) => ensureEntry ts r.1) d1.styleTags
      fgTags := pl.fgRecs.foldl
        (fun ts (r : String × List Range) => ensureEntry ts r.1) d1.fgTags
      bgTags := pl.bgRecs.foldl
        (fun ts (r : String × List Range) => ensureEntry ts r.1) d1.bgTags }
  { d2 with
      styleTags := loadTagRecs pl.styleRecs d2.styleTags
      fgTags := loadTagRecs pl.fgRecs d2.fgTags
      bgTags := loadTagRecs pl.bgRecs d2.bgTags
      alignLeft := d2.alignLeft ++ alignRecRanges pl Align.left
      alignCenter := d2.alignCenter ++ alignRecRanges pl Align.center
      alignRight := d2.alignRight ++ alignRecRanges pl Align.right }

/-- `_open_pwp` on an already-parsed payload object: the version gate
runs before any mutation; an unsupported version aborts with the current
document untouched. -/
def openPwpPayload (pl : PwpPayload) (d : Doc) : Except String Doc :=
  if pl.version ≠ 1 then Except.error "Unsupported .pwp file version"
  else Except.ok (loadPayload pl d)

/-- Foreground color resolution (`color_fg_*` tags, first covering). -/
def resolveFg (d : Doc) (p : Nat) : Option String := coversAt d.fgTags p

/-- Background color resolution (`color_bg_*` tags, first covering). -/
def resolveBg (d : Doc) (p : Nat) : Option String := coversAt d.bgTags p

/-- Alignment resolution at a position, in the fixed probe order of
`_get_line_align`. -/
def resolveAlignAt (d : Doc) (p : Nat) : Option Align :=
  if covers d.alignLeft p then some .left
  else if covers d.alignCenter p then some .center
  else if covers d.alignRight p then some .right
  else none

/-! ### The JSON layer of `_open_pwp`

`json.load` yields an arbitrary JSON value; `_open_pwp` then requires a
JSON object whose `version` field compares equal to `1` under Python
`==` (which also accepts JSON `true`, since `True == 1` in Python; JSON
floats are outside this model).  The tag payload decoding abstracts the
tag-name/`tag_configs` encoding into structured fields (the name encoding
uses an md5 fragment, which is not modelled); the version gate and the
top-level shape checks follow the source exactly. -/

inductive Jval where
  | jnull
  | jbool (b : Bool)
  | jnum (n : Int)
  | jstr (s : String)
  | jarr (xs : List Jval)
  | jobj (fields : List (String × Jval))
deriving Repr

def jlookup (fields : List (String × Jval)) (k : String) : Option Jval :=
  (fields.find? (fun f => f.1 = k)).map (fun f => f.2)

/-- `payload.get("version") == 1` in Python semantics. -/
def pyEqOne (v : Option Jval) : Bool :=
  match v with
  | some (.jnum n) => decide (n = 1)
  | some (.jbool b) => b
  | _ => false

def decodeRange (j : Jval) : Option Range :=
  match j with
  | .jarr [.jnum a, .jnum b] =>
    if 0 ≤ a ∧ 0 ≤ b then some (a.toNat, b.toNat) else none
  | _ => none

def decodeRanges (j : Option Jval) : List Range :=
  match j with
  | some (.jarr xs) => xs.filterMap decodeRange
  | _ => []

def decodeSpec (j : Option Jval) : Spec :=
  match j with
  | some (.jobj fs) =>
    { family := match jlookup fs "family" with
        | some (.jstr s) => s
        | _ => "Calibri"
      size := match jlookup fs "size" with
        | some (.jnum n) => n
        | _ => 11
      b := match jlookup fs "b" with
        | some (.jbool bb) => bb
        | _ => false
      i := match jlookup fs "i" with
        | some (.jbool bb) => bb
        | _ => false
      u := match jlookup fs "u" with
        | some (.jbool bb) => bb
        | _ => false
      o := match jlookup fs "o" with
        | some (.jbool bb) => bb
        | _ => false }
  | _ => ⟨"Calibri", 11, false, false, false, false⟩

def decodeAlign (j : Option Jval) : Option Align :=
  match j with
  | some (.jstr "left") => some .left
  | some (.jstr "center") => some .center
  | some (.jstr "right") => some .right
  | _ => none

/-- Decode one record of the `tags` array. -/
def decodeTagRec (j : Jval) (pl : PwpPayload) : PwpPayload :=
  match j with
  | .jobj fs =>
    match jlookup fs "kind" with
    | some (.jstr "style") =>
      { pl with styleRecs := pl.styleRecs ++
          [(decodeSpec (jlookup fs "spec"), decodeRanges (jlookup fs "ranges"))] }
    | some (.jstr "fg") =>
      { pl with fgRecs := pl.fgRecs ++
          [(match jlookup fs "color" with
            | some (.jstr s) => s
            | _ => "", decodeRanges (jlookup fs "ranges"))] }
    | some (.jstr "bg") =>
      { pl with bgRecs := pl.bgRecs ++
          [(match jlookup fs "color" with
            | some (.jstr s) => s
            | _ => "", decodeRanges (jlookup fs "ranges"))] }
    | some (.jstr "align") =>
      match decodeAlign (jlookup fs "align") with
      | some a =>
        { pl with alignRecs := pl.alignRecs ++
            [(a, decodeRanges (jlookup fs "ranges"))] }
      | none => pl
    | _ => pl
  | _ => pl

def decodePayloadJson (fields : List (String × Jval)) : PwpPayload :=
  let base : PwpPayload :=
    { version := 1
      text := match jlookup fields "text" with
        | some (.jstr s) => s.data
        | _ => []
      styleRecs := []
      fgRecs := []
      bgRecs := []
      alignRecs := [] }
  match jlookup fields "tags" with
  | some (.jarr xs) => xs.foldl (fun pl j => decodeTagRec j pl) base
  | _ => base

/-- `_open_pwp` from a parsed JSON value: reject anything that is not an
object with `version == 1` before touching the document. -/
def openPwpJson (j : Jval) (d : Doc) : Except String Doc :=
  match j with
  | .jobj fields =>
    if pyEqOne (jlookup fields "version") then
      Except.ok (loadPayload (decodePayloadJson fields) d)
    else Except.error "Unsupported .pwp file version"
  | _ => Except.error "Unsupported .pwp file version"

/-- The surrounding `open_file` behaviour: a load failure is caught and
reported, leaving the in-memory document as it was. -/
def openFileResultDoc (j : Jval) (d : Doc) : Doc :=
  match openPwpJson j d with
  | Except.ok d' => d'
  | Except.error _ => d

/-! ### Round-trip lemmas for the native codec -/

theorem map_pointwise_id {β : Type} (l : List β) (f : β → β)
    (h : ∀ x ∈ l, f x = x) : l.map f = l := by
  induction l with
  | nil => rfl
  | cons x xs ih =>
    rw [List.map_cons, h x (by simp), ih (fun y hy => h y (by simp [hy]))]

theorem map_if_key_not_mem {α : Type} [DecidableEq α]
    (ts : List (α × List Range)) (k : α) (g : α × List Range → List Range)
    (h : k ∉ ts.map (fun t => t.1)) :
    ts.map (fun t => if t.1 = k then (t.1, g t) else t) = ts := by
  induction ts with
  | nil => rfl
  | cons t rest ih =>
    simp only [List.map_cons, List.mem_cons] at h ⊢
    rw [if_neg (fun he => h (Or.inl he.symm)), ih (fun hm => h (Or.inr hm))]

theorem keys_map_if {α : Type} [DecidableEq α]
    (ts : List (α × List Range)) (k : α) (g : α × List Range → List Range) :
    (ts.map (fun t => if t.1 = k then (t.1, g t) else t)).map
        (fun t => t.1) =
      ts.map (fun t => t.1) := by
  rw [List.map_map]
  refine List.map_congr_left ?_
  intro t _
  by_cases h : t.1 = k <;> simp [h]

theorem tagAddEntry_of_mem {α : Type} [DecidableEq α]
    (ts : List (α × List Range)) (k : α) (rg : Range)
    (hnd : (ts.map (fun t => t.1)).Nodup) (hk : k ∈ ts.map (fun t => t.1)) :
    tagAddEntry ts k rg =
      ts.map (fun t => if t.1 = k then (t.1, t.2 ++ [rg]) else t) := by
  induction ts with
  | nil => cases hk
  | cons t rest ih =>
    simp only [List.map_cons, List.nodup_cons] at hnd
    unfold tagAddEntry
    by_cases h : t.1 = k
    · rw [if_pos h, List.map_cons, if_pos h]
      rw [map_if_key_not_mem rest k _ (h ▸ hnd.1)]
    · rw [if_neg h, List.map_cons, if_neg h]
      have hk' : k ∈ rest.map (fun t => t.1) := by
        rcases List.mem_cons.mp hk with he | hm
        · exact absurd he.symm h
        · exact hm
      rw [ih hnd.2 hk']

theorem addAllRanges_of_mem {α : Type} [DecidableEq α] (k : α) :
    ∀ (rgs : List Range) (ts : List (α × List Range)),
      (ts.map (fun t => t.1)).Nodup → k ∈ ts.map (fun t => t.1) →
      rgs.foldl (fun ts2 rg => tagAddEntry ts2 k rg) ts =
        ts.map (fun t => if t.1 = k then (t.1, t.2 ++ rgs) else t) := by
  intro rgs
  induction rgs with
  | nil =>
    intro ts _ _
    rw [List.foldl_nil]
    refine (map_pointwise_id ts _ ?_).symm
    intro t _
    by_cases h : t.1 = k
    · rw [if_pos h]
      simp
    · rw [if_neg h]
  | cons rg rest ih =>
    intro ts hnd hk
    rw [List.foldl_cons, tagAddEntry_of_mem ts k rg hnd hk]
    rw [ih _ (by rw [keys_map_if]; exact hnd) (by rw [keys_map_if]; exact hk)]
    rw [List.map_map]
    refine List.map_congr_left ?_
    intro t _
    by_cases h : t.1 = k
    · simp only [Function.comp, if_pos h]
      simp [h]
    · simp only [Function.comp, if_neg h]

theorem find?_key_none {α : Type} [DecidableEq α]
    (recs : List (α × List Range)) (k : α)
    (h : k ∉ recs.map (fun r => r.1)) :
    recs.find? (fun r => r.1 = k) = none := by
  rw [List.find?_eq_none]
  intro r hr
  simp only [decide_eq_true_eq]
  intro he
  exact h (he ▸ List.mem_map_of_mem _ hr)

theorem loadTagRecs_char {α : Type} [DecidableEq α] :
    ∀ (recs ts : List (α × List Range)),
      (ts.map (fun t => t.1)).Nodup →
      (recs.map (fun r => r.1)).Nodup →
      (∀ r ∈ recs, r.1 ∈ ts.map (fun t => t.1)) →
      loadTagRecs recs ts =
        ts.map (fun t => (t.1, t.2 ++
          (((recs.find? (fun r => r.1 = t.1)).map (fun r => r.2)).getD []))) := by
  intro recs
  induction recs with
  | nil =>
    intro ts _ _ _
    unfold loadTagRecs
    rw [List.foldl_nil]
    refine (map_pointwise_id ts _ ?_).symm
    intro t _
    simp
  | cons r rest ih =>
    intro ts hndt hndr hsub
    unfold loadTagRecs
    rw [List.foldl_cons]
    rw [show (rest.foldl
      (fun ts2 r2 => r2.2.foldl (fun ts3 rg => tagAddEntry ts3 r2.1 rg) ts2)
      (r.2.foldl (fun ts3 rg => tagAddEntry ts3 r.1 rg) ts)) =
        loadTagRecs rest
          (r.2.foldl (fun ts3 rg => tagAddEntry ts3 r.1 rg) ts) from rfl]
    rw [addAllRanges_of_mem r.1 r.2 ts hndt
      (hsub r (List.mem_cons_self _ _))]
    simp only [List.map_cons, List.nodup_cons] at hndr
    rw [ih _ (by rw [keys_map_if]; exact hndt) hndr.2 (fun r2 h2 => by
      rw [keys_map_if]
      exact hsub r2 (List.mem_cons_of_mem _ h2))]
    rw [List.map_map]
    refine List.map_congr_left ?_
    intro t _
    by_cases h : t.1 = r.1
    · have hfr : rest.find? (fun r2 => r2.1 = t.1) = none :=
        find?_key_none rest t.1 (h ▸ hndr.1)
      have hhd : (r :: rest).find? (fun r2 => r2.1 = t.1) = some r :=
        List.find?_cons_of_pos _ (by simp [h])
      rw [h] at hfr hhd
      simp [h, hfr, hhd]
    · have hhd : (r :: rest).find? (fun r2 => r2.1 = t.1) =
          rest.find? (fun r2 => r2.1 = t.1) :=
        List.find?_cons_of_neg _
          (by simp only [decide_eq_true_eq]; exact fun he => h he.symm)
      simp [h, hhd]

theorem saveTagRecs_cons_empty {α : Type} (t : α × List Range)
    (rest : List (α × List Range)) (len : Nat)
    (h : (normRuns (covers t.2) len).isEmpty = true) :
    saveTagRecs (t :: rest) len = saveTagRecs rest len := by
  unfold saveTagRecs
  rw [List.filterMap_cons, if_pos h]

theorem saveTagRecs_cons_nonempty {α : Type} (t : α × List Range)
    (rest : List (α × List Range)) (len : Nat)
    (h : ¬(normRuns (covers t.2) len).isEmpty = true) :
    saveTagRecs (t :: rest) len =
      (t.1, normRuns (covers t.2) len) :: saveTagRecs rest len := by
  unfold saveTagRecs
  rw [List.filterMap_cons, if_neg h]

theorem keys_saveTagRecs {α : Type} (ts : List (α × List Range))
    (len : Nat) :
    ((saveTagRecs ts len).map (fun r => r.1)).Sublist
      (ts.map (fun t => t.1)) := by
  induction ts with
  | nil => simp [saveTagRecs]
  | cons t rest ih =>
    by_cases h : (normRuns (covers t.2) len).isEmpty
    · rw [saveTagRecs_cons_empty t rest len h]
      exact (ih).cons t.1
    · rw [saveTagRecs_cons_nonempty t rest len h]
      rw [List.map_cons]
      exact (ih).cons₂ t.1

theorem find?_saveTagRecs {α : Type} [DecidableEq α] :
    ∀ (ts : List (α × List Range)) (len : Nat),
      ((ts.map (fun t => t.1)).Nodup) → ∀ t ∈ ts,
      (saveTagRecs ts len).find? (fun r => r.1 = t.1) =
        (if (normRuns (covers t.2) len).isEmpty then none
         else some (t.1, normRuns (covers t.2) len)) := by
  intro ts
  induction ts with
  | nil =>
    intro len _ t ht
    cases ht
  | cons t0 rest ih =>
    intro len hnd t ht
    simp only [List.map_cons, List.nodup_cons] at hnd
    rcases List.mem_cons.mp ht with rfl | hmem
    · by_cases h : (normRuns (covers t.2) len).isEmpty
      · rw [saveTagRecs_cons_empty t rest len h]
        rw [if_pos h]
        refine find?_key_none _ _ ?_
        intro hm
        exact hnd.1 ((keys_saveTagRecs rest len).subset hm)
      · rw [saveTagRecs_cons_nonempty t rest len h]
        rw [if_neg h, List.find?_cons_of_pos _ (by simp)]
    · have hne : t0.1 ≠ t.1 := by
        intro he
        exact hnd.1 (he ▸ List.mem_map_of_mem _ hmem)
      by_cases h : (normRuns (covers t0.2) len).isEmpty
      · rw [saveTagRecs_cons_empty t0 rest len h]
        exact ih len hnd.2 t hmem
      · rw [saveTagRecs_cons_nonempty t0 rest len h]
        rw [List.find?_cons_of_neg _ (by simp [hne])]
        exact ih len hnd.2 t hmem

theorem ensureFold_id {α : Type} [DecidableEq α]
    (recs : List (α × List Range)) :
    ∀ (ts : List (α × List Range)),
      (∀ r ∈ recs, r.1 ∈ ts.map (fun t => t.1)) →
      recs.foldl (fun ts r => ensureEntry ts r.1) ts = ts := by
  induction recs with
  | nil => intro ts _; rfl
  | cons r rest ih =>
    intro ts h
    rw [List.foldl_cons]
    have he : ensureEntry ts r.1 = ts := by
      unfold ensureEntry
      rw [if_pos]
      have := h r (List.mem_cons_self _ _)
      simp only [List.mem_map] at this
      obtain ⟨t, ht, he⟩ := this
      simp only [List.any_eq_true, decide_eq_true_eq]
      exact ⟨t, ht, he⟩
    rw [he]
    exact ih ts (fun r2 h2 => h r2 (List.mem_cons_of_mem _ h2))

theorem coversAt_map_ranges {α : Type} (ts : List (α × List Range))
    (f : α × List Range → List Range) (p : Nat)
    (h : ∀ t ∈ ts, covers (f t) p = covers t.2 p) :
    coversAt (ts.map (fun t => (t.1, f t))) p = coversAt ts p := by
  induction ts with
  | nil => rfl
  | cons t rest ih =>
    rw [List.map_cons, coversAt_cons, coversAt_cons,
      h t (List.mem_cons_self _ _),
      ih (fun t2 h2 => h t2 (List.mem_cons_of_mem _ h2))]

theorem covers_of_runs_empty {len p : Nat} (hp : p < len) (rs : List Range)
    (h : (normRuns (covers rs) len).isEmpty = true) : covers rs p = false := by
  cases hc : covers rs p
  · rfl
  · exfalso
    obtain ⟨r, hr, _⟩ := covered_mem_run (covers rs) len p hp hc
    rw [List.isEmpty_iff] at h
    rw [h] at hr
    cases hr

/-- Coverage-level round trip for one tag kind: saving the maximal runs
and re-adding them into the cleared entries reproduces the resolution at
every document position. -/
theorem coversAt_roundtrip {α : Type} [DecidableEq α]
    (ts : List (α × List Range)) (len p : Nat) (hp : p < len)
    (hnd : (ts.map (fun t => t.1)).Nodup) :
    coversAt (loadTagRecs (saveTagRecs ts len)
      (ts.map (fun t => (t.1, ([] : List Range))))) p = coversAt ts p := by
  have hkeys : (ts.map (fun t => (t.1, ([] : List Range)))).map
      (fun t => t.1) = ts.map (fun t => t.1) := by
    rw [List.map_map]
    rfl
  have hndr : ((saveTagRecs ts len).map (fun r => r.1)).Nodup :=
    (keys_saveTagRecs ts len).nodup hnd
  have hsub : ∀ r ∈ saveTagRecs ts len,
      r.1 ∈ (ts.map (fun t => (t.1, ([] : List Range)))).map
        (fun t => t.1) := by
    intro r hr
    rw [hkeys]
    exact (keys_saveTagRecs ts len).subset (List.mem_map_of_mem _ hr)
  rw [loadTagRecs_char (saveTagRecs ts len) _ (hkeys ▸ hnd) hndr hsub]
  rw [List.map_map]
  have hcomp : ((fun t => (t.1, t.2 ++
      (Option.map (fun r => r.2) ((saveTagRecs ts len).find?
        (fun r => r.1 = t.1))).getD [])) ∘
      (fun (t : α × List Range) => (t.1, ([] : List Range)))) =
      (fun (t : α × List Range) => (t.1,
        (([] : List Range) ++
          (Option.map (fun r => r.2) ((saveTagRecs ts len).find?
            (fun r => r.1 = t.1))).getD []))) := by
    funext t
    rfl
  rw [hcomp]
  refine coversAt_map_ranges ts _ p ?_
  intro t ht
  rw [covers_append]
  rw [find?_saveTagRecs ts len hnd t ht]
  by_cases h : (normRuns (covers t.2) len).isEmpty
  · rw [if_pos h]
    simp only [Option.map_none', Option.getD_none]
    rw [covers_of_runs_empty hp t.2 h]
    rfl
  · rw [if_neg h]
    simp only [Option.map_some', Option.getD_some]
    rw [covers_normRuns (covers t.2) len p hp]
    rfl

theorem defaultSpec_loadPayload (pl : PwpPayload) (d : Doc) :
    defaultSpec (loadPayload pl d) = defaultSpec d := rfl

theorem loadPayload_text (pl : PwpPayload) (d : Doc) :
    (loadPayload pl d).text = pl.text := rfl

theorem getEffectiveSpecAt_congr₂ (d d' : Doc) (p : Nat)
    (hc : coversAt d'.styleTags p = coversAt d.styleTags p)
    (hd : defaultSpec d' = defaultSpec d) :
    getEffectiveSpecAt d' p = getEffectiveSpecAt d p := by
  unfold getEffectiveSpecAt
  rw [hc, hd]

theorem loadPayload_styleTags (pl : PwpPayload) (d : Doc) :
    (loadPayload pl d).styleTags =
      loadTagRecs pl.styleRecs
        (pl.styleRecs.foldl
          (fun ts (r : Spec × List Range) => ensureEntry ts r.1)
          (d.styleTags.map (fun t => (t.1, ([] : List Range))))) := rfl

theorem loadPayload_fgTags (pl : PwpPayload) (d : Doc) :
    (loadPayload pl d).fgTags =
      loadTagRecs pl.fgRecs
        (pl.fgRecs.foldl
          (fun ts (r : String × List Range) => ensureEntry ts r.1)
          (d.fgTags.map (fun t => (t.1, ([] : List Range))))) := rfl

theorem loadPayload_bgTags (pl : PwpPayload) (d : Doc) :
    (loadPayload pl d).bgTags =
      loadTagRecs pl.bgRecs
        (pl.bgRecs.foldl
          (fun ts (r : String × List Range) => ensureEntry ts r.1)
          (d.bgTags.map (fun t => (t.1, ([] : List Range))))) := rfl

theorem alignRecRanges_savePwp (d : Doc) (X : Align) :
    alignRecRanges (savePwp d) X =
      (if (normRuns (covers (alignRanges d X)) (docLen d)).isEmpty then []
       else normRuns (covers (alignRanges d X)) (docLen d)) := by
  unfold alignRecRanges savePwp
  by_cases hl :
      normRuns (covers (alignRanges d .left)) (docLen d) = [] <;>
  by_cases hc :
      normRuns (covers (alignRanges d .center)) (docLen d) = [] <;>
  by_cases hr :
      normRuns (covers (alignRanges d .right)) (docLen d) = [] <;>
  cases X <;>
  simp [List.filterMap_cons, hl, hc, hr, List.filter, List.isEmpty_iff]

theorem covers_loadPayload_align (d : Doc) (p : Nat) (hp : p < docLen d)
    (X : Align) :
    covers (alignRanges (loadPayload (savePwp d) d) X) p =
      covers (alignRanges d X) p := by
  have h1 : alignRanges (loadPayload (savePwp d) d) X =
      alignRecRanges (savePwp d) X := by
    cases X <;> rfl
  rw [h1, alignRecRanges_savePwp]
  by_cases h : (normRuns (covers (alignRanges d X)) (docLen d)).isEmpty
  · rw [if_pos h, covers_of_runs_empty hp (alignRanges d X) h]
    rfl
  · rw [if_neg h]
    exact covers_normRuns _ _ p hp

/-- Per-kind coverage round trip applied to the document's style tags. -/
theorem coversAt_loadPayload_style (d : Doc) (p : Nat) (hp : p < docLen d)
    (hnd : (d.styleTags.map (fun t => t.1)).Nodup) :
    coversAt (loadPayload (savePwp d) d).styleTags p =
      coversAt d.styleTags p := by
  rw [loadPayload_styleTags]
  have hsub : ∀ r ∈ (savePwp d).styleRecs,
      r.1 ∈ (d.styleTags.map (fun t => (t.1, ([] : List Range)))).map
        (fun t => t.1) := by
    intro r hr
    have : (d.styleTags.map (fun t => (t.1, ([] : List Range)))).map
        (fun t => t.1) = d.styleTags.map (fun t => t.1) := by
      rw [List.map_map]
      rfl
    rw [this]
    exact (keys_saveTagRecs d.styleTags (docLen d)).subset
      (List.mem_map_of_mem _ hr)
  rw [ensureFold_id _ _ hsub]
  exact coversAt_roundtrip d.styleTags (docLen d) p hp hnd

theorem coversAt_loadPayload_fg (d : Doc) (p : Nat) (hp : p < docLen d)
    (hnd : (d.fgTags.map (fun t => t.1)).Nodup) :
    coversAt (loadPayload (savePwp d) d).fgTags p =
      coversAt d.fgTags p := by
  rw [loadPayload_fgTags]
  have hsub : ∀ r ∈ (savePwp d).fgRecs,
      r.1 ∈ (d.fgTags.map (fun t => (t.1, ([] : List Range)))).map
        (fun t => t.1) := by
    intro r hr
    have : (d.fgTags.map (fun t => (t.1, ([] : List Range)))).map
        (fun t => t.1) = d.fgTags.map (fun t => t.1) := by
      rw [List.map_map]
      rfl
    rw [this]
    exact (keys_saveTagRecs d.fgTags (docLen d)).subset
      (List.mem_map_of_mem _ hr)
  rw [ensureFold_id _ _ hsub]
  exact coversAt_roundtrip d.fgTags (docLen d) p hp hnd

theorem coversAt_loadPayload_bg (d : Doc) (p : Nat) (hp : p < docLen d)
    (hnd : (d.bgTags.map (fun t => t.1)).Nodup) :
    coversAt (loadPayload (savePwp d) d).bgTags p =
      coversAt d.bgTags p := by
  rw [loadPayload_bgTags]
  have hsub : ∀ r ∈ (savePwp d).bgRecs,
      r.1 ∈ (d.bgTags.map (fun t => (t.1, ([] : List Range)))).map
        (fun t => t.1) := by
    intro r hr
    have : (d.bgTags.map (fun t => (t.1, ([] : List Range)))).map
        (fun t => t.1) = d.bgTags.map (fun t => t.1) := by
      rw [List.map_map]
      rfl
    rw [this]
    exact (keys_saveTagRecs d.bgTags (docLen d)).subset
      (List.mem_map_of_mem _ hr)
  rw [ensureFold_id _ _ hsub]
  exact coversAt_roundtrip d.bgTags (docLen d) p hp hnd

/-! ### Resolution effect of typing-mode styling and insertion -/

theorem getLineAlign_of_covers (d : Doc) (ln : Nat) (v : Option Align)
    (h : ∀ X, covers (alignRanges d X)
      (lineStartPos (docLines d) ln) = decide (v = some X)) :
    getLineAlign d ln = v := by
  have hL := h .left
  have hC := h .center
  have hR := h .right
  simp only [alignRanges] at hL hC hR
  unfold getLineAlign
  rw [hL, hC, hR]
  rcases v with _ | a
  · simp
  · cases a <;> simp

/-! ### Helper lemmas on line text -/

theorem take_indentLen (l : List Char) :
    l.take (indentLen l) = l.takeWhile isIndentChar := by
  have h := List.takeWhile_append_dropWhile (p := isIndentChar) (l := l)
  calc l.take (indentLen l)
      = (l.takeWhile isIndentChar ++ l.dropWhile isIndentChar).take
          (indentLen l) := by rw [h]
    _ = l.takeWhile isIndentChar := by
        unfold indentLen
        exact List.take_left _ _

theorem drop_indentLen (l : List Char) :
    l.drop (indentLen l) = l.dropWhile isIndentChar := by
  have h := List.takeWhile_append_dropWhile (p := isIndentChar) (l := l)
  calc l.drop (indentLen l)
      = (l.takeWhile isIndentChar ++ l.dropWhile isIndentChar).drop
          (indentLen l) := by rw [h]
    _ = l.dropWhile isIndentChar := by
        unfold indentLen
        exact List.drop_left _ _

theorem indentLen_le_length (l : List Char) : indentLen l ≤ l.length := by
  unfold indentLen
  simpa using List.length_le_of_sublist (List.takeWhile_sublist _)

theorem takeWhile_all_append (p : Char → Bool) (xs : List Char) (y : Char)
    (ys : List Char) (hall : ∀ c ∈ xs, p c = true) (hy : p y = false) :
    (xs ++ y :: ys).takeWhile p = xs := by
  induction xs with
  | nil => simp [List.takeWhile_cons, hy]
  | cons x xs ih =>
    rw [List.cons_append, List.takeWhile_cons, hall x (by simp)]
    rw [ih (fun c hc => hall c (by simp [hc]))]
    simp

theorem indentLen_append_bullet (ind rest : List Char)
    (hall : ∀ c ∈ ind, isIndentChar c = true) :
    indentLen (ind ++ '•' :: rest) = ind.length := by
  unfold indentLen
  rw [takeWhile_all_append isIndentChar ind '•' rest hall (by decide)]

theorem isBulleted_of_components (ind rest : List Char)
    (hall : ∀ c ∈ ind, isIndentChar c = true) :
    isBulletedLine (ind ++ '•' :: ' ' :: rest) = true := by
  unfold isBulletedLine lineTail
  rw [show ind ++ '•' :: ' ' :: rest = ind ++ '•' :: (' ' :: rest) from rfl,
    indentLen_append_bullet ind (' ' :: rest) hall]
  rw [show (ind ++ '•' :: ' ' :: rest).drop ind.length = '•' :: ' ' :: rest
    from List.drop_left ind _]
  rfl

theorem mem_take_indent (l : List Char) (c : Char)
    (h : c ∈ l.take (indentLen l)) : isIndentChar c = true := by
  rw [take_indentLen] at h
  exact List.mem_takeWhile_imp h

theorem removeAt_zero (l : List Char) (i : Nat) : removeAt l i 0 = l := by
  unfold removeAt
  rw [Nat.add_zero, List.take_append_drop]

theorem blank_not_bulleted (l : List Char) (h : blankLine l = true) :
    isBulletedLine l = false := by
  cases hb : isBulletedLine l
  · rfl
  · exfalso
    unfold isBulletedLine startsWithChars at hb
    have htk : (lineTail l).take bulletMarker.length = bulletMarker := by
      simpa using hb
    have hmem : '•' ∈ (lineTail l).take bulletMarker.length := by
      rw [htk]
      simp [bulletMarker]
    have hmem2 : '•' ∈ l :=
      ((List.take_sublist _ _).trans
        ((List.drop_sublist _ _))).subset hmem
    have := List.all_eq_true.mp h '•' hmem2
    simp [pyWhitespace] at this

theorem digit_not_pyWs (c : Char) (h1 : c.isDigit = true)
    (h2 : pyWhitespace c = true) : False := by
  simp only [pyWhitespace, Bool.or_eq_true, decide_eq_true_eq] at h2
  rcases h2 with ((((rfl | rfl) | rfl) | rfl) | rfl) | rfl <;>
    exact absurd h1 (by decide)

theorem blank_not_numbered (l : List Char) (h : blankLine l = true) :
    lineNumLen l = 0 := by
  unfold lineNumLen numPrefixLen
  cases hds : (lineTail l).takeWhile Char.isDigit with
  | nil => simp [hds]
  | cons c cs =>
    exfalso
    have hmemtw : c ∈ (lineTail l).takeWhile Char.isDigit := by
      rw [hds]
      simp
    have hcd : c.isDigit = true := List.mem_takeWhile_imp hmemtw
    have hcm : c ∈ l := by
      have h1 : c ∈ lineTail l := (List.takeWhile_sublist _).subset hmemtw
      exact (List.drop_sublist _ _).subset h1
    exact digit_not_pyWs c hcd (List.all_eq_true.mp h c hcm)

theorem bullet_not_numbered (t : List Char)
    (h : startsWithChars bulletMarker t = true) : numPrefixLen t = 0 := by
  unfold startsWithChars at h
  have htk : t.take bulletMarker.length = bulletMarker := by simpa using h
  match t, htk with
  | c1 :: c2 :: rest, htk =>
    have hred : (c1 :: c2 :: rest).take bulletMarker.length = [c1, c2] := rfl
    rw [hred] at htk
    have h1 : c1 = '•' := by
      injection htk
    subst h1
    unfold numPrefixLen
    have hdig : Char.isDigit '•' = false := by decide
    rw [List.takeWhile_cons, hdig]
    simp

theorem alignFold_text (f : Nat → Option Align) :
    ∀ (lns : List Nat) (d : Doc),
      ((lns.foldl (fun dd ln => applyAlignmentToLine dd (f ln) ln) d)).text =
        d.text := by
  intro lns
  induction lns with
  | nil => intro d; rfl
  | cons ln rest ih =>
    intro d
    rw [List.foldl_cons, ih, applyAlignmentToLine_text]

theorem lineSpan_congr {d d' : Doc} (h : d'.text = d.text) (ln : Nat) :
    lineSpan d' ln = lineSpan d ln := by
  unfold lineSpan docLines
  rw [h]

theorem docLines_congr {d d' : Doc} (h : d'.text = d.text) :
    docLines d' = docLines d := by
  unfold docLines
  rw [h]

theorem getLineAlign_congr' (d d' : Doc) (ln : Nat)
    (htext : d'.text = d.text)
    (hL : covers d'.alignLeft (lineStartPos (docLines d) ln) =
      covers d.alignLeft (lineStartPos (docLines d) ln))
    (hC : covers d'.alignCenter (lineStartPos (docLines d) ln) =
      covers d.alignCenter (lineStartPos (docLines d) ln))
    (hR : covers d'.alignRight (lineStartPos (docLines d) ln) =
      covers d.alignRight (lineStartPos (docLines d) ln)) :
    getLineAlign d' ln = getLineAlign d ln := by
  unfold getLineAlign
  rw [docLines_congr htext, hL, hC, hR]

/-! ## Claim theorems -/

/-- C5: loading a native `.pwp` whose parsed JSON is not an object, or
whose top-level `version` field does not compare equal to the supported
value 1 (under the loader's Python `==`), fails hard with the
`Unsupported .pwp file version` error, and the in-memory document — its
text and all tag ranges — is left completely unchanged (the version gate
in `_open_pwp` runs before any mutation, and `open_file` catches the
failure). -/
theorem claimC5 (j : Jval) (d : Doc)
    (h : ∀ fields, j = Jval.jobj fields →
      pyEqOne (jlookup fields "version") = false) :
    openPwpJson j d = Except.error "Unsupported .pwp file version" ∧
    openFileResultDoc j d = d := by
  have herr : openPwpJson j d =
      Except.error "Unsupported .pwp file version" := by
    cases j with
    | jobj fields =>
      have hf := h fields rfl
      simp [openPwpJson, hf]
    | jnull => rfl
    | jbool b => rfl
    | jnum n => rfl
    | jstr s => rfl
    | jarr xs => rfl
  refine ⟨herr, ?_⟩
  unfold openFileResultDoc
  rw [herr]

/-- Witness for C5: a payload with `version: 2` is rejected and leaves a
concrete document untouched. -/
theorem claimC5_witness :
    openPwpJson (Jval.jobj [("version", Jval.jnum 2)])
        { text := ['a'], styleTags := [], fgTags := [], bgTags := [],
          alignLeft := [], alignCenter := [], alignRight := [],
          defFamily := "Calibri", defSize := 11 } =
      Except.error "Unsupported .pwp file version" ∧
    openFileResultDoc (Jval.jobj [("version", Jval.jnum 2)])
        { text := ['a'], styleTags := [], fgTags := [], bgTags := [],
          alignLeft := [], alignCenter := [], alignRight := [],
          defFamily := "Calibri", defSize := 11 } =
      { text := ['a'], styleTags := [], fgTags := [], bgTags := [],
        alignLeft := [], alignCenter := [], alignRight := [],
        defFamily := "Calibri", defSize := 11 } :=
  claimC5 (Jval.jobj [("version", Jval.jnum 2)]) _
    (by
      intro fields hf
      cases hf
      rfl)

/-- C8: on Enter at the end of a line, `handle_return_key` continues a
bulleted line with non-blank content with a new bulleted line, strips the
marker of an empty bullet line and yields a plain empty line, continues a
line numbered `n` with non-blank content with a `"{n+1}. "` prefix, and
strips the marker of an empty numbered line. -/
theorem claimC8 (line : List Char) (caret : Nat)
    (hc : caret = line.length) :
    (isBulletedLine line = true →
      blankLine ((lineTail line).drop bulletMarker.length) = false →
      handleReturnKey line caret =
        some (line, line.take (indentLen line) ++ bulletMarker)) ∧
    (isBulletedLine line = true →
      blankLine ((lineTail line).drop bulletMarker.length) = true →
      handleReturnKey line caret =
        some (removeAt line (indentLen line) bulletMarker.length, [])) ∧
    (0 < lineNumLen line →
      blankLine ((lineTail line).drop (lineNumLen line)) = false →
      handleReturnKey line caret =
        some (line, line.take (indentLen line) ++
          numPrefixStr (numValue (lineTail line) + 1))) ∧
    (0 < lineNumLen line →
      blankLine ((lineTail line).drop (lineNumLen line)) = true →
      handleReturnKey line caret =
        some (removeAt line (indentLen line) (lineNumLen line), [])) := by
  subst hc
  refine ⟨?_, ?_, ?_, ?_⟩
  · intro hb hnb
    have hb' : startsWithChars bulletMarker (List.drop (indentLen line) line)
        = true := hb
    have hnb' : blankLine (List.drop bulletMarker.length
        (List.drop (indentLen line) line)) = false := hnb
    simp only [handleReturnKey]
    rw [if_pos hb', if_neg (show ¬ ((blankLine (List.drop bulletMarker.length
      (List.drop (indentLen line) line)) &&
      decide (line.length ≤ line.length)) = true) by rw [hnb']; simp),
      List.take_length, List.drop_length]
    simp
  · intro hb hblank
    have hb' : startsWithChars bulletMarker (List.drop (indentLen line) line)
        = true := hb
    have hbl' : blankLine (List.drop bulletMarker.length
        (List.drop (indentLen line) line)) = true := hblank
    simp only [handleReturnKey]
    rw [if_pos hb', if_pos (show (blankLine (List.drop bulletMarker.length
      (List.drop (indentLen line) line)) &&
      decide (line.length ≤ line.length)) = true by rw [hbl']; simp)]
  · intro hn hnb
    have hnotb : startsWithChars bulletMarker (lineTail line) = false := by
      cases hsb : startsWithChars bulletMarker (lineTail line)
      · rfl
      · exfalso
        have := bullet_not_numbered (lineTail line) hsb
        unfold lineNumLen at hn
        omega
    have hnotb' : ¬ (startsWithChars bulletMarker
        (List.drop (indentLen line) line) = true) := by
      have h0 : startsWithChars bulletMarker (List.drop (indentLen line) line)
          = false := hnotb
      simp [h0]
    have hn' : 0 < numPrefixLen (List.drop (indentLen line) line) := hn
    have hnb' : blankLine (List.drop
        (numPrefixLen (List.drop (indentLen line) line))
        (List.drop (indentLen line) line)) = false := hnb
    simp only [handleReturnKey]
    rw [if_neg hnotb', if_pos hn',
      if_neg (show ¬ ((blankLine (List.drop
        (numPrefixLen (List.drop (indentLen line) line))
        (List.drop (indentLen line) line)) &&
        decide (line.length ≤ line.length)) = true) by rw [hnb']; simp),
      List.take_length, List.drop_length]
    simp [lineTail]
  · intro hn hblank
    have hnotb : startsWithChars bulletMarker (lineTail line) = false := by
      cases hsb : startsWithChars bulletMarker (lineTail line)
      · rfl
      · exfalso
        have := bullet_not_numbered (lineTail line) hsb
        unfold lineNumLen at hn
        omega
    have hnotb' : ¬ (startsWithChars bulletMarker
        (List.drop (indentLen line) line) = true) := by
      have h0 : startsWithChars bulletMarker (List.drop (indentLen line) line)
          = false := hnotb
      simp [h0]
    have hn' : 0 < numPrefixLen (List.drop (indentLen line) line) := hn
    have hbl' : blankLine (List.drop
        (numPrefixLen (List.drop (indentLen line) line))
        (List.drop (indentLen line) line)) = true := hblank
    simp only [handleReturnKey]
    rw [if_neg hnotb', if_pos hn',
      if_pos (show (blankLine (List.drop
        (numPrefixLen (List.drop (indentLen line) line))
        (List.drop (indentLen line) line)) &&
        decide (line.length ≤ line.length)) = true by rw [hbl']; simp)]
    rfl

theorem map_congr_mem {α β : Type} (l : List α) (f g : α → β)
    (h : ∀ x ∈ l, f x = g x) : l.map f = l.map g := by
  induction l with
  | nil => rfl
  | cons x xs ih =>
    rw [List.map_cons, List.map_cons, h x (by simp),
      ih (fun y hy => h y (by simp [hy]))]

theorem take_indent_length (l : List Char) :
    (l.take (indentLen l)).length = indentLen l := by
  rw [take_indentLen]
  rfl

theorem bulletize_eq (l : List Char) :
    insertAt l (indentLen l) bulletMarker =
      l.take (indentLen l) ++ '•' :: ' ' :: l.drop (indentLen l) := by
  unfold insertAt bulletMarker
  rw [List.append_assoc]
  rfl

theorem isBulleted_bulletize (l : List Char) :
    isBulletedLine (insertAt l (indentLen l) bulletMarker) = true := by
  rw [bulletize_eq]
  exact isBulleted_of_components _ _ (fun c hc => mem_take_indent l c hc)

theorem indentLen_bulletize (l : List Char) :
    indentLen (insertAt l (indentLen l) bulletMarker) = indentLen l := by
  rw [bulletize_eq,
    indentLen_append_bullet _ _ (fun c hc => mem_take_indent l c hc),
    take_indent_length]

theorem unbulletize_bulletize (l : List Char) :
    removeAt (insertAt l (indentLen l) bulletMarker)
      (indentLen (insertAt l (indentLen l) bulletMarker))
      bulletMarker.length = l := by
  rw [indentLen_bulletize, bulletize_eq]
  unfold removeAt
  have hA : (l.take (indentLen l)).length = indentLen l := take_indent_length l
  rw [List.take_left' hA]
  have h2 : ('•' :: ' ' :: l.drop (indentLen l)).drop bulletMarker.length
      = l.drop (indentLen l) := rfl
  rw [← List.drop_drop, List.drop_left' hA, h2, List.take_append_drop]

theorem isBulleted_insert_strip (l : List Char) (n : Nat) :
    isBulletedLine (insertAt (removeAt l (indentLen l) n) (indentLen l)
      bulletMarker) = true := by
  unfold removeAt insertAt
  have hA : (l.take (indentLen l)).length = indentLen l := take_indent_length l
  rw [List.take_left' hA, List.drop_left' hA, List.append_assoc]
  have hbm : bulletMarker ++ l.drop (indentLen l + n)
      = '•' :: ' ' :: l.drop (indentLen l + n) := rfl
  rw [hbm]
  exact isBulleted_of_components _ _ (fun c hc => mem_take_indent l c hc)

theorem numberNonBlank_length (lines : List (List Char)) :
    ∀ n, (numberNonBlank lines n).length = lines.length := by
  induction lines with
  | nil => intro n; rfl
  | cons l rest ih =>
    intro n
    simp only [numberNonBlank]
    split
    · simp [ih]
    · simp [ih]

theorem numberNonBlank_getq (lines : List (List Char)) :
    ∀ (n i : Nat),
      (numberNonBlank lines n)[i]? = (lines[i]?).map (fun l =>
        if blankLine l then l
        else applyNumber l (n + nonBlankCount (lines.take i))) := by
  induction lines with
  | nil => intro n i; simp [numberNonBlank]
  | cons l rest ih =>
    intro n i
    cases hb : blankLine l
    · have hstep : numberNonBlank (l :: rest) n
          = applyNumber l n :: numberNonBlank rest (n + 1) := by
        simp only [numberNonBlank]
        rw [hb, if_neg (show ¬ (false = true) by decide)]
      cases i with
      | zero => simp [hstep, hb, nonBlankCount]
      | succ j =>
        rw [hstep]
        simp only [List.getElem?_cons_succ, List.take_succ_cons]
        rw [ih (n + 1) j]
        simp [nonBlankCount, hb, Nat.add_assoc]
    · have hstep : numberNonBlank (l :: rest) n
          = l :: numberNonBlank rest n := by
        simp only [numberNonBlank]
        rw [hb, if_pos rfl]
      cases i with
      | zero => simp [hstep, hb]
      | succ j =>
        rw [hstep]
        simp only [List.getElem?_cons_succ, List.take_succ_cons]
        rw [ih n j]
        simp [nonBlankCount, hb]

/-- C6: block list toggling. With every non-blank line already marked,
both toggles strip the marker from every non-blank line and leave blank
lines untouched; otherwise `toggle_list` bullets every unmarked non-blank
line (leaving every non-blank line of the result bulleted), and
`toggle_numbered_list` renumbers the non-blank lines sequentially from 1
— the number a line receives depends only on how many non-blank lines
precede it, never on a prior number — while blank lines keep their slot
(both toggles preserve the line count). -/
theorem claimC6 (lines : List (List Char)) :
    (toggle_list lines).length = lines.length ∧
    (toggle_numbered_list lines).length = lines.length ∧
    ((∀ l ∈ lines, blankLine l = false → isBulletedLine l = true) →
      toggle_list lines = lines.map (fun l =>
        if blankLine l then l
        else removeAt l (indentLen l) bulletMarker.length)) ∧
    ((∃ l ∈ lines, blankLine l = false ∧ isBulletedLine l = false) →
      (∀ i : Nat, (toggle_list lines)[i]? = (lines[i]?).map (fun l =>
        if blankLine l then l
        else if isBulletedLine l then l
        else insertAt (removeAt l (indentLen l) (lineNumLen l)) (indentLen l)
          bulletMarker)) ∧
      ∀ l' ∈ toggle_list lines, blankLine l' = false →
        isBulletedLine l' = true) ∧
    ((∀ l ∈ lines, blankLine l = false → 0 < lineNumLen l) →
      toggle_numbered_list lines = lines.map (fun l =>
        if blankLine l then l
        else removeAt l (indentLen l) (lineNumLen l))) ∧
    ((∃ l ∈ lines, blankLine l = false ∧ lineNumLen l = 0) →
      ∀ i : Nat, (toggle_numbered_list lines)[i]? = (lines[i]?).map (fun l =>
        if blankLine l then l
        else applyNumber l (1 + nonBlankCount (lines.take i)))) := by
  refine ⟨?_, ?_, ?_, ?_, ?_, ?_⟩
  · simp [toggle_list]
  · simp only [toggle_numbered_list]
    split
    · simp
    · exact numberNonBlank_length lines 1
  · intro hA
    have hall : lines.all (fun l => blankLine l || isBulletedLine l)
        = true := by
      rw [List.all_eq_true]
      intro l hl
      simp only [Bool.or_eq_true]
      cases hb : blankLine l
      · exact Or.inr (hA l hl hb)
      · exact Or.inl rfl
    simp only [toggle_list]
    rw [hall]
    apply map_congr_mem
    intro l hl
    rw [if_pos rfl]
    cases hb : blankLine l
    · rw [if_pos (hA l hl hb), if_neg (show ¬ (false = true) by decide)]
    · rw [if_neg (by simp [blank_not_bulleted l hb]), if_pos rfl]
  · intro hEx
    obtain ⟨l₀, hl₀, hnb₀, hnbul₀⟩ := hEx
    have hall : lines.all (fun l => blankLine l || isBulletedLine l)
        = false := by
      cases hv : lines.all (fun l => blankLine l || isBulletedLine l)
      · rfl
      · exfalso
        have hm := List.all_eq_true.mp hv l₀ hl₀
        simp only [Bool.or_eq_true] at hm
        rcases hm with h1 | h2
        · rw [hnb₀] at h1
          exact absurd h1 (by decide)
        · rw [hnbul₀] at h2
          exact absurd h2 (by decide)
    have hmapeq : toggle_list lines = lines.map (fun l =>
        if blankLine l then l
        else if isBulletedLine l then l
        else insertAt (removeAt l (indentLen l) (lineNumLen l)) (indentLen l)
          bulletMarker) := by
      simp only [toggle_list]
      rw [hall]
      apply map_congr_mem
      intro l _
      rw [if_neg (show ¬ (false = true) by decide)]
      cases hb : blankLine l <;> cases hbul : isBulletedLine l <;> simp
    constructor
    · intro i
      rw [hmapeq]
      simp
    · intro l' hl' hb'
      rw [hmapeq, List.mem_map] at hl'
      obtain ⟨l, hl, hfl⟩ := hl'
      cases hb : blankLine l
      · cases hbul : isBulletedLine l
        · have hfx : (if blankLine l then l
              else if isBulletedLine l then l
              else insertAt (removeAt l (indentLen l) (lineNumLen l))
                (indentLen l) bulletMarker)
              = insertAt (removeAt l (indentLen l) (lineNumLen l))
                (indentLen l) bulletMarker := by
            rw [hb, hbul]
            simp
          rw [hfx] at hfl
          rw [← hfl]
          exact isBulleted_insert_strip l (lineNumLen l)
        · have hfx : (if blankLine l then l
              else if isBulletedLine l then l
              else insertAt (removeAt l (indentLen l) (lineNumLen l))
                (indentLen l) bulletMarker) = l := by
            rw [hb, hbul]
            simp
          rw [hfx] at hfl
          rw [← hfl]
          exact hbul
      · have hfx : (if blankLine l then l
            else if isBulletedLine l then l
            else insertAt (removeAt l (indentLen l) (lineNumLen l))
              (indentLen l) bulletMarker) = l := by
          rw [hb]
          simp
        rw [hfx] at hfl
        rw [← hfl] at hb'
        rw [hb] at hb'
        exact absurd hb' (by decide)
  · intro hN
    have hallN : lines.all
        (fun l => blankLine l || decide (0 < lineNumLen l)) = true := by
      rw [List.all_eq_true]
      intro l hl
      simp only [Bool.or_eq_true, decide_eq_true_eq]
      cases hb : blankLine l
      · exact Or.inr (hN l hl hb)
      · exact Or.inl rfl
    simp only [toggle_numbered_list]
    rw [hallN, if_pos rfl]
    apply map_congr_mem
    intro l hl
    cases hb : blankLine l
    · rw [if_neg (show ¬ (false = true) by decide),
        if_neg (show ¬ (lineNumLen l = 0) by
          have := hN l hl hb
          omega),
        if_neg (show ¬ (false = true) by decide)]
    · rw [if_pos rfl, if_pos rfl]
  · intro hEx
    obtain ⟨l₀, hl₀, hb₀, hn₀⟩ := hEx
    have hallN : lines.all
        (fun l => blankLine l || decide (0 < lineNumLen l)) = false := by
      cases hv : lines.all (fun l => blankLine l || decide (0 < lineNumLen l))
      · rfl
      · exfalso
        have hm := List.all_eq_true.mp hv l₀ hl₀
        simp only [Bool.or_eq_true, decide_eq_true_eq] at hm
        rcases hm with h1 | h2
        · rw [hb₀] at h1
          exact absurd h1 (by decide)
        · omega
    have hnn : toggle_numbered_list lines = numberNonBlank lines 1 := by
      simp only [toggle_numbered_list]
      rw [hallN, if_neg (show ¬ (false = true) by decide)]
    intro i
    rw [hnn]
    exact numberNonBlank_getq lines 1 i

/-- Witness for C6: a fully bulleted block is stripped, and toggling the
numbered list on a block whose third line already reads `"9. y"`
renumbers it to `"2. y"` — sequential from 1, one number per preceding
non-blank line, regardless of the old `9`. -/
theorem claimC6_witness :
    toggle_list [['•', ' ', 'a'], []] = [['a'], []] ∧
    (toggle_numbered_list [['x'], [], ['9', '.', ' ', 'y']])[2]? =
      some ['2', '.', ' ', 'y'] := by
  constructor
  · have h := (claimC6 [['•', ' ', 'a'], []]).2.2.1 (by decide)
    exact h.trans (by decide)
  · have h := (claimC6 [['x'], [], ['9', '.', ' ', 'y']]).2.2.2.2.2
      (by decide) 2
    exact h.trans (by decide)

theorem bulleted_tail_decomp (t : List Char)
    (h : startsWithChars bulletMarker t = true) :
    t = '•' :: ' ' :: t.drop bulletMarker.length := by
  unfold startsWithChars at h
  have htk : t.take bulletMarker.length = bulletMarker := by simpa using h
  have h2 := List.take_append_drop bulletMarker.length t
  rw [htk] at h2
  exact h2.symm

theorem indentLen_append_of (A r : List Char)
    (hA : ∀ c ∈ A, isIndentChar c = true) (hr : indentLen r = 0)
    (hrne : r ≠ []) : indentLen (A ++ r) = A.length := by
  match r, hrne with
  | c :: cs, _ =>
    have hc : isIndentChar c = false := by
      cases hic : isIndentChar c
      · rfl
      · exfalso
        unfold indentLen at hr
        rw [List.takeWhile_cons, hic] at hr
        simp at hr
    unfold indentLen
    rw [takeWhile_all_append isIndentChar A c cs hA hc]

theorem removeAt_eq_take_dropTail (l : List Char) (n : Nat) :
    removeAt l (indentLen l) n
      = l.take (indentLen l) ++ (lineTail l).drop n := by
  unfold removeAt lineTail
  congr 1
  rw [List.drop_drop, Nat.add_comm]

/-- C7 counterexample: double bullet-toggle on the one-line block
`"1. a"` yields `"a"` — the first toggle strips the numbered prefix
before inserting the bullet, so the second toggle cannot restore it. -/
theorem claimC7_counterexample :
    toggle_list (toggle_list [['1', '.', ' ', 'a']]) = [['a']] ∧
    ([['a']] : List (List Char)) ≠ [['1', '.', ' ', 'a']] := by
  constructor
  · decide
  · decide

/-- Double bullet-toggle restores a block whose non-blank lines are all
plainly bulleted: the first toggle strips every bullet, the second
re-inserts it at the same indentation. -/
theorem toggle_list_double_bulleted (lines : List (List Char))
    (hB : ∀ l ∈ lines, blankLine l = false →
      isBulletedLine l = true ∧
      blankLine ((lineTail l).drop bulletMarker.length) = false ∧
      indentLen ((lineTail l).drop bulletMarker.length) = 0 ∧
      startsWithChars bulletMarker
        ((lineTail l).drop bulletMarker.length) = false ∧
      numPrefixLen ((lineTail l).drop bulletMarker.length) = 0) :
    toggle_list (toggle_list lines) = lines := by
  by_cases hex : ∃ l ∈ lines, blankLine l = false
  case neg =>
    have hblank : ∀ l ∈ lines, blankLine l = true := by
      intro l hl
      cases hb : blankLine l
      · exact absurd ⟨l, hl, hb⟩ hex
      · rfl
    have hallB : lines.all (fun l => blankLine l || isBulletedLine l)
        = true := by
      rw [List.all_eq_true]
      intro l hl
      simp [hblank l hl]
    have hid : toggle_list lines = lines := by
      simp only [toggle_list]
      rw [hallB]
      apply map_pointwise_id
      intro l hl
      rw [if_pos rfl, if_neg (by simp [blank_not_bulleted l (hblank l hl)])]
    rw [hid, hid]
  case pos =>
    obtain ⟨l₀, hl₀, hnb₀⟩ := hex
    have hallB : lines.all (fun l => blankLine l || isBulletedLine l)
        = true := by
      rw [List.all_eq_true]
      intro l hl
      simp only [Bool.or_eq_true]
      cases hb : blankLine l
      · exact Or.inr (hB l hl hb).1
      · exact Or.inl rfl
    have h1 : toggle_list lines = lines.map (fun l =>
        if isBulletedLine l = true then
          removeAt l (indentLen l) bulletMarker.length
        else l) := by
      simp only [toggle_list]
      rw [hallB]
      apply map_congr_mem
      intro l _
      rw [if_pos rfl]
    have hprops : ∀ l ∈ lines, blankLine l = false →
        blankLine (l.take (indentLen l) ++
          (lineTail l).drop bulletMarker.length) = false ∧
        isBulletedLine (l.take (indentLen l) ++
          (lineTail l).drop bulletMarker.length) = false ∧
        lineNumLen (l.take (indentLen l) ++
          (lineTail l).drop bulletMarker.length) = 0 ∧
        indentLen (l.take (indentLen l) ++
          (lineTail l).drop bulletMarker.length) = indentLen l := by
      intro l hl hb
      obtain ⟨hbul, hrnb, hrind, hrb, hrn⟩ := hB l hl hb
      have hrne : (lineTail l).drop bulletMarker.length ≠ [] := by
        intro he
        rw [he] at hrnb
        exact absurd hrnb (by decide)
      have hind : indentLen (l.take (indentLen l) ++
          (lineTail l).drop bulletMarker.length) = indentLen l :=
        (indentLen_append_of _ _ (fun c hc => mem_take_indent l c hc)
          hrind hrne).trans (take_indent_length l)
      have hlt : lineTail (l.take (indentLen l) ++
          (lineTail l).drop bulletMarker.length)
          = (lineTail l).drop bulletMarker.length := by
        show (l.take (indentLen l) ++
          (lineTail l).drop bulletMarker.length).drop
            (indentLen (l.take (indentLen l) ++
              (lineTail l).drop bulletMarker.length))
          = (lineTail l).drop bulletMarker.length
        rw [hind]
        exact List.drop_left' (take_indent_length l)
      refine ⟨?_, ?_, ?_, hind⟩
      · have hra : ((lineTail l).drop bulletMarker.length).all pyWhitespace
            = false := hrnb
        unfold blankLine
        rw [List.all_append, hra]
        simp
      · unfold isBulletedLine
        rw [hlt]
        exact hrb
      · unfold lineNumLen
        rw [hlt]
        exact hrn
    have hall₂ : (lines.map (fun l =>
        if isBulletedLine l = true then
          removeAt l (indentLen l) bulletMarker.length
        else l)).all (fun l => blankLine l || isBulletedLine l)
        = false := by
      cases hv : (lines.map (fun l =>
          if isBulletedLine l = true then
            removeAt l (indentLen l) bulletMarker.length
          else l)).all (fun l => blankLine l || isBulletedLine l)
      · rfl
      · exfalso
        have hm := List.mem_map_of_mem (fun l =>
          if isBulletedLine l = true then
            removeAt l (indentLen l) bulletMarker.length
          else l) hl₀
        have hval := List.all_eq_true.mp hv _ hm
        simp only [Bool.or_eq_true] at hval
        rw [if_pos (hB l₀ hl₀ hnb₀).1, removeAt_eq_take_dropTail] at hval
        obtain ⟨hpb, hpbul, _, _⟩ := hprops l₀ hl₀ hnb₀
        rcases hval with hx | hx
        · rw [hpb] at hx
          exact absurd hx (by decide)
        · rw [hpbul] at hx
          exact absurd hx (by decide)
    have h2 : toggle_list (lines.map (fun l =>
        if isBulletedLine l = true then
          removeAt l (indentLen l) bulletMarker.length
        else l)) = (lines.map (fun l =>
        if isBulletedLine l = true then
          removeAt l (indentLen l) bulletMarker.length
        else l)).map (fun l =>
        if blankLine l = false ∧ isBulletedLine l = false then
          insertAt (removeAt l (indentLen l) (lineNumLen l)) (indentLen l)
            bulletMarker
        else l) := by
      simp only [toggle_list]
      rw [hall₂]
      apply map_congr_mem
      intro l _
      rw [if_neg (show ¬ (false = true) by decide)]
    rw [h1, h2, List.map_map]
    apply map_pointwise_id
    intro x hx
    simp only [Function.comp_apply]
    rcases Bool.eq_false_or_eq_true (blankLine x) with hb | hb
    · have hgx : (if isBulletedLine x = true then
          removeAt x (indentLen x) bulletMarker.length
        else x) = x := by
        rw [if_neg (by simp [blank_not_bulleted x hb])]
      rw [hgx, if_neg (by simp [hb])]
    · obtain ⟨hbul, hrnb, hrind, hrb, hrn⟩ := hB x hx hb
      obtain ⟨hpb, hpbul, hpn, hpind⟩ := hprops x hx hb
      have hgx : (if isBulletedLine x = true then
          removeAt x (indentLen x) bulletMarker.length
        else x) = x.take (indentLen x) ++
          (lineTail x).drop bulletMarker.length := by
        rw [if_pos hbul, removeAt_eq_take_dropTail]
      rw [hgx, if_pos ⟨hpb, hpbul⟩, hpn, removeAt_zero, hpind]
      unfold insertAt
      rw [List.take_left' (take_indent_length x),
        List.drop_left' (take_indent_length x), List.append_assoc]
      have hx2 : bulletMarker ++ (lineTail x).drop bulletMarker.length
          = '•' :: ' ' :: (lineTail x).drop bulletMarker.length := rfl
      rw [hx2, ← bulleted_tail_decomp (lineTail x) hbul]
      exact List.take_append_drop (indentLen x) x

/-- C7 (amended): toggling the bullet list twice returns every line to
its exact pre-toggle state in two families of blocks: (A) every
non-blank line carries no list marker at all — neither a bullet nor a
numbered prefix; or (B) every non-blank line is a plainly bulleted line
— its content after the `"• "` marker is non-blank, does not begin with
further indentation, and carries no bullet and no numbered prefix of its
own.  (Restoration can fail otherwise, as the counterexample's numbered
line shows.) -/
theorem claimC7 (lines : List (List Char))
    (h : (∀ l ∈ lines, blankLine l = false →
            isBulletedLine l = false ∧ lineNumLen l = 0) ∨
         (∀ l ∈ lines, blankLine l = false →
            isBulletedLine l = true ∧
            blankLine ((lineTail l).drop bulletMarker.length) = false ∧
            indentLen ((lineTail l).drop bulletMarker.length) = 0 ∧
            startsWithChars bulletMarker
              ((lineTail l).drop bulletMarker.length) = false ∧
            numPrefixLen ((lineTail l).drop bulletMarker.length) = 0)) :
    toggle_list (toggle_list lines) = lines := by
  rcases h with h | hB
  case inr => exact toggle_list_double_bulleted lines hB
  cases hall : lines.all (fun l => blankLine l || isBulletedLine l) with
  | true =>
    have hblank : ∀ l ∈ lines, blankLine l = true := by
      intro l hl
      have hor := List.all_eq_true.mp hall l hl
      simp only [Bool.or_eq_true] at hor
      cases hb : blankLine l
      · rcases hor with h1 | h2
        · rw [hb] at h1
          exact absurd h1 (by decide)
        · exact absurd h2 (by simp [(h l hl hb).1])
      · rfl
    have hid : toggle_list lines = lines := by
      simp only [toggle_list]
      rw [hall]
      apply map_pointwise_id
      intro l hl
      rw [if_pos rfl, if_neg (by simp [blank_not_bulleted l (hblank l hl)])]
    rw [hid, hid]
  | false =>
    have h1 : toggle_list lines = lines.map (fun l =>
        if blankLine l = false ∧ isBulletedLine l = false then
          insertAt (removeAt l (indentLen l) (lineNumLen l)) (indentLen l)
            bulletMarker
        else l) := by
      simp only [toggle_list]
      rw [hall]
      apply map_congr_mem
      intro l _
      rw [if_neg (by decide)]
    have hall2 : (lines.map (fun l =>
        if blankLine l = false ∧ isBulletedLine l = false then
          insertAt (removeAt l (indentLen l) (lineNumLen l)) (indentLen l)
            bulletMarker
        else l)).all (fun l => blankLine l || isBulletedLine l) = true := by
      rw [List.all_eq_true]
      intro l' hl'
      rw [List.mem_map] at hl'
      obtain ⟨l, hl, hfl⟩ := hl'
      cases hb : blankLine l
      · obtain ⟨hnbul, hnn⟩ := h l hl hb
        have hfx : (if blankLine l = false ∧ isBulletedLine l = false then
            insertAt (removeAt l (indentLen l) (lineNumLen l)) (indentLen l)
              bulletMarker
          else l) = insertAt l (indentLen l) bulletMarker := by
          rw [if_pos ⟨hb, hnbul⟩, hnn, removeAt_zero]
        rw [hfx] at hfl
        subst hfl
        simp [isBulleted_bulletize]
      · have hfx : (if blankLine l = false ∧ isBulletedLine l = false then
            insertAt (removeAt l (indentLen l) (lineNumLen l)) (indentLen l)
              bulletMarker
          else l) = l := by
          rw [if_neg (by simp [hb])]
        rw [hfx] at hfl
        subst hfl
        simp [hb]
    rw [h1]
    simp only [toggle_list]
    rw [hall2, List.map_map]
    apply map_pointwise_id
    intro x hx
    simp only [Function.comp_apply]
    rcases Bool.eq_false_or_eq_true (blankLine x) with hb | hb
    · have hfx : (if blankLine x = false ∧ isBulletedLine x = false then
          insertAt (removeAt x (indentLen x) (lineNumLen x)) (indentLen x)
            bulletMarker
        else x) = x := by
        rw [if_neg (by simp [hb])]
      rw [hfx]
      simp [blank_not_bulleted x hb]
    · obtain ⟨hnbul, hnn⟩ := h x hx hb
      have hfx : (if blankLine x = false ∧ isBulletedLine x = false then
          insertAt (removeAt x (indentLen x) (lineNumLen x)) (indentLen x)
            bulletMarker
        else x) = insertAt x (indentLen x) bulletMarker := by
        rw [if_pos ⟨hb, hnbul⟩, hnn, removeAt_zero]
      rw [hfx]
      simp [isBulleted_bulletize, unbulletize_bulletize]

/-- Witness for C7: the markerless block `["ab", ""]` and the plainly
bulleted block `["• a"]` are both restored exactly by the double
bullet-toggle. -/
theorem claimC7_witness :
    toggle_list (toggle_list [['a', 'b'], []]) = [['a', 'b'], []] ∧
    toggle_list (toggle_list [['•', ' ', 'a']]) = [['•', ' ', 'a']] :=
  ⟨claimC7 [['a', 'b'], []] (Or.inl (by decide)),
   claimC7 [['•', ' ', 'a']] (Or.inr (by decide))⟩

/-- Witness for C8: Enter at the end of `"• Item"` continues the bullet;
Enter on the empty numbered line `"3. "` exits the list. -/
theorem claimC8_witness :
    handleReturnKey ['•', ' ', 'I'] 3 = some (['•', ' ', 'I'], ['•', ' ']) ∧
    handleReturnKey ['3', '.', ' '] 3 = some ([], []) := by
  constructor
  · have h := (claimC8 ['•', ' ', 'I'] 3 (by decide)).1 (by decide) (by decide)
    exact h.trans (by decide)
  · have h := (claimC8 ['3', '.', ' '] 3 (by decide)).2.2.2 (by decide)
      (by decide)
    exact h.trans (by decide)

theorem flagOf_flipFlag (f : StyleFlag) (sp : Spec) :
    flagOf f (flipFlag f sp) = !flagOf f sp := by
  cases f <;> rfl

theorem resolve_segment_of_mem (d : Doc) (s e : Nat) (hse : s ≤ e)
    (hle : e ≤ docLen d) (p : Nat) (hp1 : s ≤ p) (hp2 : p < e) :
    ∃ sg ∈ iterStyleSegments d s e, sg.1 ≤ p ∧ p < sg.2.1 ∧
      getEffectiveSpecAt d p = sg.2.2 := by
  obtain ⟨q, hq, hq1, hq2⟩ := consecPairs_cover
    (sorted_styleBoundaries d s e) (s_mem_styleBoundaries d s e)
    (e_mem_styleBoundaries d s e) hp1 hp2
  have hqpair : (q.1, q.2) ∈ consecPairs (styleBoundaries d s e) := by
    simpa using hq
  refine ⟨(q.1, q.2, getEffectiveSpecAt d q.1),
    (mem_iterStyleSegments_iff d s e _).mpr
      ⟨hqpair, show q.1 < q.2 by omega, rfl⟩,
    hq1, hq2, ?_⟩
  exact (resolve_const_on_segment hse hle hqpair (Nat.le_refl q.1)
    (show q.1 < q.2 by omega) hq1 hq2).symm

theorem toggle_coversAt_inside (d : Doc) (flag : StyleFlag) (s e : Nat)
    (hse : s ≤ e) (hle : e ≤ docLen d) (p : Nat) (hp1 : s ≤ p)
    (hp2 : p < e) :
    coversAt (toggleDoc d flag s e).styleTags p
      = some (flipFlag flag (getEffectiveSpecAt d p)) := by
  obtain ⟨q, hq, hq1, hq2⟩ := consecPairs_cover
    (sorted_styleBoundaries d s e) (s_mem_styleBoundaries d s e)
    (e_mem_styleBoundaries d s e) hp1 hp2
  have hqpair : (q.1, q.2) ∈ consecPairs (styleBoundaries d s e) := by
    simpa using hq
  have hmem : (q.1, q.2, getEffectiveSpecAt d q.1) ∈
      iterStyleSegments d s e :=
    (mem_iterStyleSegments_iff d s e _).mpr
      ⟨hqpair, show q.1 < q.2 by omega, rfl⟩
  have h0 : coversAt (d.styleTags.map
      (fun t => (t.1, removeRangeFromRanges t.2 s e))) p = none :=
    coversAt_removeMap_inside d.styleTags s e p hp1 hp2
  have hdisj : ∀ sg ∈ iterStyleSegments d s e,
      sg ≠ (q.1, q.2, getEffectiveSpecAt d q.1) →
      inRange (sg.1, sg.2.1) p = false := by
    intro sg hsg hne
    cases hin : inRange (sg.1, sg.2.1) p
    · rfl
    · exfalso
      have hin' : sg.1 ≤ p ∧ p < sg.2.1 := by
        simpa [inRange] using hin
      obtain ⟨hpair, hlt, hspec⟩ :=
        (mem_iterStyleSegments_iff d s e sg).mp hsg
      have heqq := consecPairs_unique (sorted_styleBoundaries d s e) hpair
        hqpair hin'.1 hin'.2 hq1 hq2
      apply hne
      obtain ⟨a, b, c⟩ := sg
      simp only at hspec heqq ⊢
      rw [heqq.1, heqq.2, hspec, heqq.1]
  have hfold := coversAt_addSegsTags_mem flag p
    (q.1, q.2, getEffectiveSpecAt d q.1)
    (by simp only [inRange]; simp [hq1, hq2])
    (iterStyleSegments d s e)
    (d.styleTags.map (fun t => (t.1, removeRangeFromRanges t.2 s e)))
    (nodup_iterStyleSegments d s e) hmem hdisj h0
  have hfold' : coversAt (toggledTags d flag s e) p =
      some (flipFlag flag (getEffectiveSpecAt d q.1)) := hfold
  have hshow : (toggleDoc d flag s e).styleTags = toggledTags d flag s e := by
    rw [toggleDoc_eq]
  rw [hshow, hfold',
    resolve_const_on_segment hse hle hqpair (Nat.le_refl q.1)
      (show q.1 < q.2 by omega) hq1 hq2]

/-- C1 counterexample: on `"ab"` with bold tagged over `[0, 1)` only, a
single bold toggle over `[0, 2)` clears the flag on the first segment
while setting it on the second — no single boolean is applied to the
whole range. -/
theorem claimC1_counterexample :
    flagOf StyleFlag.bold (getEffectiveSpecAt
      { text := ['a', 'b'],
        styleTags := [(⟨"Calibri", 11, true, false, false, false⟩, [(0, 1)])],
        fgTags := [], bgTags := [],
        alignLeft := [], alignCenter := [], alignRight := [],
        defFamily := "Calibri", defSize := 11 } 0) = true ∧
    flagOf StyleFlag.bold (getEffectiveSpecAt
      { text := ['a', 'b'],
        styleTags := [(⟨"Calibri", 11, true, false, false, false⟩, [(0, 1)])],
        fgTags := [], bgTags := [],
        alignLeft := [], alignCenter := [], alignRight := [],
        defFamily := "Calibri", defSize := 11 } 1) = false ∧
    flagOf StyleFlag.bold (getEffectiveSpecAt (toggleDoc
      { text := ['a', 'b'],
        styleTags := [(⟨"Calibri", 11, true, false, false, false⟩, [(0, 1)])],
        fgTags := [], bgTags := [],
        alignLeft := [], alignCenter := [], alignRight := [],
        defFamily := "Calibri", defSize := 11 } StyleFlag.bold 0 2) 0)
      = false ∧
    flagOf StyleFlag.bold (getEffectiveSpecAt (toggleDoc
      { text := ['a', 'b'],
        styleTags := [(⟨"Calibri", 11, true, false, false, false⟩, [(0, 1)])],
        fgTags := [], bgTags := [],
        alignLeft := [], alignCenter := [], alignRight := [],
        defFamily := "Calibri", defSize := 11 } StyleFlag.bold 0 2) 1)
      = true := by
  refine ⟨by decide, by decide, ?_, ?_⟩
  · rw [toggle_resolve_inside _ StyleFlag.bold 0 2 (by omega) (by decide) 0
      (by omega) (by omega)]
    decide
  · rw [toggle_resolve_inside _ StyleFlag.bold 0 2 (by omega) (by decide) 1
      (by omega) (by omega)]
    decide

/-- C1 (amended): a selection toggle flips the flag segment by segment:
at every selected position the effective spec's flag is inverted relative
to its own pre-toggle value (so a segment that had the flag loses it and
one that lacked it gains it in the same call), and positions outside the
selection are untouched.  When the pre-toggle flag value is uniform over
the selection — all segments have it, or none — the whole range does
receive one common new value, OFF respectively ON. -/
theorem claimC1 (d : Doc) (flag : StyleFlag) (s e : Nat)
    (hse : s ≤ e) (hle : e ≤ docLen d) :
    (∀ p, s ≤ p → p < e →
      getEffectiveSpecAt (toggleDoc d flag s e) p
        = flipFlag flag (getEffectiveSpecAt d p)) ∧
    (∀ p, p < s ∨ e ≤ p →
      getEffectiveSpecAt (toggleDoc d flag s e) p
        = getEffectiveSpecAt d p) ∧
    (∀ sg ∈ iterStyleSegments d s e, ∀ p, sg.1 ≤ p → p < sg.2.1 →
      flagOf flag (getEffectiveSpecAt (toggleDoc d flag s e) p)
        = !flagOf flag sg.2.2) ∧
    ((∀ sg ∈ iterStyleSegments d s e, flagOf flag sg.2.2 = true) →
      ∀ p, s ≤ p → p < e →
        flagOf flag (getEffectiveSpecAt (toggleDoc d flag s e) p)
          = false) ∧
    ((∀ sg ∈ iterStyleSegments d s e, flagOf flag sg.2.2 = false) →
      ∀ p, s ≤ p → p < e →
        flagOf flag (getEffectiveSpecAt (toggleDoc d flag s e) p)
          = true) := by
  refine ⟨?_, ?_, ?_, ?_, ?_⟩
  · intro p h1 h2
    exact toggle_resolve_inside d flag s e hse hle p h1 h2
  · intro p hp
    exact toggle_resolve_outside d flag s e hse p hp
  · intro sg hsg p h1 h2
    rw [toggle_per_segment d flag s e hse hle sg hsg p h1 h2,
      flagOf_flipFlag]
  · intro hall p h1 h2
    obtain ⟨sg, hsg, _, _, hres⟩ :=
      resolve_segment_of_mem d s e hse hle p h1 h2
    rw [toggle_resolve_inside d flag s e hse hle p h1 h2, flagOf_flipFlag,
      hres, hall sg hsg]
    rfl
  · intro hnone p h1 h2
    obtain ⟨sg, hsg, _, _, hres⟩ :=
      resolve_segment_of_mem d s e hse hle p h1 h2
    rw [toggle_resolve_inside d flag s e hse hle p h1 h2, flagOf_flipFlag,
      hres, hnone sg hsg]
    rfl

/-- Witness for C1: on the plain document `"ab"` a bold toggle over
`[0, 2)` flips the resolved spec at position 0 and leaves position 2
(outside the selection) untouched. -/
theorem claimC1_witness :
    getEffectiveSpecAt (toggleDoc
      { text := ['a', 'b'], styleTags := [], fgTags := [], bgTags := [],
        alignLeft := [], alignCenter := [], alignRight := [],
        defFamily := "Calibri", defSize := 11 } StyleFlag.bold 0 2) 0
      = flipFlag StyleFlag.bold (getEffectiveSpecAt
        { text := ['a', 'b'], styleTags := [], fgTags := [], bgTags := [],
          alignLeft := [], alignCenter := [], alignRight := [],
          defFamily := "Calibri", defSize := 11 } 0) ∧
    getEffectiveSpecAt (toggleDoc
      { text := ['a', 'b'], styleTags := [], fgTags := [], bgTags := [],
        alignLeft := [], alignCenter := [], alignRight := [],
        defFamily := "Calibri", defSize := 11 } StyleFlag.bold 0 2) 2
      = getEffectiveSpecAt
        { text := ['a', 'b'], styleTags := [], fgTags := [], bgTags := [],
          alignLeft := [], alignCenter := [], alignRight := [],
          defFamily := "Calibri", defSize := 11 } 2 := by
  have h := claimC1
    { text := ['a', 'b'], styleTags := [], fgTags := [], bgTags := [],
      alignLeft := [], alignCenter := [], alignRight := [],
      defFamily := "Calibri", defSize := 11 } StyleFlag.bold 0 2
    (by omega) (by decide)
  exact ⟨h.1 0 (by omega) (by omega), h.2.1 2 (Or.inr (by omega))⟩

/-- C4 counterexample: on the untagged `"Hello world"`, two successive
bold toggles over `[0, 5)` leave position 0 explicitly covered by a
style tag, whereas before the first toggle no style tag covered it — the
exact set of tagged sub-ranges is not restored. -/
theorem claimC4_counterexample :
    coversAt
      ({ text := "Hello world".data, styleTags := [], fgTags := [],
         bgTags := [], alignLeft := [], alignCenter := [], alignRight := [],
         defFamily := "Calibri", defSize := 11 } : Doc).styleTags 0
      = none ∧
    coversAt (toggleDoc (toggleDoc
      { text := "Hello world".data, styleTags := [], fgTags := [],
        bgTags := [], alignLeft := [], alignCenter := [], alignRight := [],
        defFamily := "Calibri", defSize := 11 } StyleFlag.bold 0 5)
      StyleFlag.bold 0 5).styleTags 0
      = some ⟨"Calibri", 11, false, false, false, false⟩ := by
  constructor
  · rfl
  · rw [toggle_coversAt_inside _ StyleFlag.bold 0 5 (by omega)
      (by rw [toggleDoc_docLen]; decide) 0 (by omega) (by omega),
      toggle_resolve_inside _ StyleFlag.bold 0 5 (by omega) (by decide) 0
        (by omega) (by omega)]
    decide

/-- C4 (amended): a double toggle restores the resolved style at every
position (and the first toggle flips inside the selection and preserves
outside, as in the quoted `"Hello world"` scenario); however, inside the
selection the restoration is by explicit tagging — after the double
toggle every selected position is covered by a style tag carrying the
original resolved spec — so the set of tagged sub-ranges may differ from
the pre-toggle one. -/
theorem claimC4 (d : Doc) (flag : StyleFlag) (s e : Nat) (hse : s ≤ e)
    (hle : e ≤ docLen d) :
    (∀ p, getEffectiveSpecAt (toggleDoc (toggleDoc d flag s e) flag s e) p
      = getEffectiveSpecAt d p) ∧
    (∀ p, s ≤ p → p < e →
      coversAt (toggleDoc (toggleDoc d flag s e) flag s e).styleTags p
        = some (getEffectiveSpecAt d p)) ∧
    (∀ p, s ≤ p → p < e →
      getEffectiveSpecAt (toggleDoc d flag s e) p
        = flipFlag flag (getEffectiveSpecAt d p)) ∧
    (∀ p, p < s ∨ e ≤ p →
      getEffectiveSpecAt (toggleDoc d flag s e) p
        = getEffectiveSpecAt d p) := by
  have hle2 : e ≤ docLen (toggleDoc d flag s e) := by
    rw [toggleDoc_docLen]
    exact hle
  refine ⟨toggle_double_resolve d flag s e hse hle, ?_, ?_, ?_⟩
  · intro p h1 h2
    rw [toggle_coversAt_inside _ flag s e hse hle2 p h1 h2,
      toggle_resolve_inside d flag s e hse hle p h1 h2, flipFlag_flipFlag]
  · intro p h1 h2
    exact toggle_resolve_inside d flag s e hse hle p h1 h2
  · intro p hp
    exact toggle_resolve_outside d flag s e hse p hp

/-- Witness for C4: the quoted scenario — `"Hello world"`, bold over
`[0, 5)`: after one toggle resolve(0) is bold and resolve(6) is not;
after the second toggle resolve(0) is no longer bold. -/
theorem claimC4_witness :
    flagOf StyleFlag.bold (getEffectiveSpecAt (toggleDoc
      { text := "Hello world".data, styleTags := [], fgTags := [],
        bgTags := [], alignLeft := [], alignCenter := [], alignRight := [],
        defFamily := "Calibri", defSize := 11 } StyleFlag.bold 0 5) 0)
      = true ∧
    flagOf StyleFlag.bold (getEffectiveSpecAt (toggleDoc
      { text := "Hello world".data, styleTags := [], fgTags := [],
        bgTags := [], alignLeft := [], alignCenter := [], alignRight := [],
        defFamily := "Calibri", defSize := 11 } StyleFlag.bold 0 5) 6)
      = false ∧
    flagOf StyleFlag.bold (getEffectiveSpecAt (toggleDoc (toggleDoc
      { text := "Hello world".data, styleTags := [], fgTags := [],
        bgTags := [], alignLeft := [], alignCenter := [], alignRight := [],
        defFamily := "Calibri", defSize := 11 } StyleFlag.bold 0 5)
      StyleFlag.bold 0 5) 0) = false := by
  have h := claimC4
    { text := "Hello world".data, styleTags := [], fgTags := [],
      bgTags := [], alignLeft := [], alignCenter := [], alignRight := [],
      defFamily := "Calibri", defSize := 11 } StyleFlag.bold 0 5
    (by omega) (by decide)
  refine ⟨?_, ?_, ?_⟩
  · have h1 := h.2.2.1 0 (by omega) (by omega)
    have h2 := congrArg (flagOf StyleFlag.bold) h1
    exact h2.trans (by decide)
  · have h1 := h.2.2.2 6 (Or.inr (by omega))
    have h2 := congrArg (flagOf StyleFlag.bold) h1
    exact h2.trans (by decide)
  · have h1 := h.1 0
    have h2 := congrArg (flagOf StyleFlag.bold) h1
    exact h2.trans (by decide)

/-- C2: saving a document to the native `.pwp` payload and loading it
back succeeds (the saved version is 1) and yields a document with the
same text whose resolved style, foreground color, background color and
alignment at every position equal the original's — provided each tag
kind's creation-order key list is duplicate-free, as the editor
guarantees by construction. -/
theorem claimC2 (d : Doc)
    (hstyle : (d.styleTags.map (fun t => t.1)).Nodup)
    (hfg : (d.fgTags.map (fun t => t.1)).Nodup)
    (hbg : (d.bgTags.map (fun t => t.1)).Nodup) :
    openPwpPayload (savePwp d) d = Except.ok (loadPayload (savePwp d) d) ∧
    (loadPayload (savePwp d) d).text = d.text ∧
    (∀ p, p < docLen d →
      getEffectiveSpecAt (loadPayload (savePwp d) d) p
        = getEffectiveSpecAt d p) ∧
    (∀ p, p < docLen d →
      resolveFg (loadPayload (savePwp d) d) p = resolveFg d p) ∧
    (∀ p, p < docLen d →
      resolveBg (loadPayload (savePwp d) d) p = resolveBg d p) ∧
    (∀ p, p < docLen d →
      resolveAlignAt (loadPayload (savePwp d) d) p
        = resolveAlignAt d p) := by
  refine ⟨?_, rfl, ?_, ?_, ?_, ?_⟩
  · unfold openPwpPayload
    rw [if_neg (show ¬ ((savePwp d).version ≠ 1) from fun h => h rfl)]
  · intro p hp
    exact getEffectiveSpecAt_congr₂ d (loadPayload (savePwp d) d) p
      (coversAt_loadPayload_style d p hp hstyle) rfl
  · intro p hp
    exact coversAt_loadPayload_fg d p hp hfg
  · intro p hp
    exact coversAt_loadPayload_bg d p hp hbg
  · intro p hp
    have hL : covers (loadPayload (savePwp d) d).alignLeft p
        = covers d.alignLeft p := covers_loadPayload_align d p hp .left
    have hC : covers (loadPayload (savePwp d) d).alignCenter p
        = covers d.alignCenter p := covers_loadPayload_align d p hp .center
    have hR : covers (loadPayload (savePwp d) d).alignRight p
        = covers d.alignRight p := covers_loadPayload_align d p hp .right
    unfold resolveAlignAt
    rw [hL, hC, hR]

/-- Witness for C2: a one-character document with a bold style tag, a
red foreground tag and a centered line round-trips. -/
theorem claimC2_witness :
    openPwpPayload (savePwp
      { text := ['a'],
        styleTags := [(⟨"Calibri", 11, true, false, false, false⟩, [(0, 1)])],
        fgTags := [("#ff0000", [(0, 1)])], bgTags := [],
        alignLeft := [], alignCenter := [(0, 2)], alignRight := [],
        defFamily := "Calibri", defSize := 11 })
      { text := ['a'],
        styleTags := [(⟨"Calibri", 11, true, false, false, false⟩, [(0, 1)])],
        fgTags := [("#ff0000", [(0, 1)])], bgTags := [],
        alignLeft := [], alignCenter := [(0, 2)], alignRight := [],
        defFamily := "Calibri", defSize := 11 }
      = Except.ok (loadPayload (savePwp
        { text := ['a'],
          styleTags :=
            [(⟨"Calibri", 11, true, false, false, false⟩, [(0, 1)])],
          fgTags := [("#ff0000", [(0, 1)])], bgTags := [],
          alignLeft := [], alignCenter := [(0, 2)], alignRight := [],
          defFamily := "Calibri", defSize := 11 })
        { text := ['a'],
          styleTags :=
            [(⟨"Calibri", 11, true, false, false, false⟩, [(0, 1)])],
          fgTags := [("#ff0000", [(0, 1)])], bgTags := [],
          alignLeft := [], alignCenter := [(0, 2)], alignRight := [],
          defFamily := "Calibri", defSize := 11 }) ∧
    getEffectiveSpecAt (loadPayload (savePwp
      { text := ['a'],
        styleTags := [(⟨"Calibri", 11, true, false, false, false⟩, [(0, 1)])],
        fgTags := [("#ff0000", [(0, 1)])], bgTags := [],
        alignLeft := [], alignCenter := [(0, 2)], alignRight := [],
        defFamily := "Calibri", defSize := 11 })
      { text := ['a'],
        styleTags := [(⟨"Calibri", 11, true, false, false, false⟩, [(0, 1)])],
        fgTags := [("#ff0000", [(0, 1)])], bgTags := [],
        alignLeft := [], alignCenter := [(0, 2)], alignRight := [],
        defFamily := "Calibri", defSize := 11 }) 0
      = getEffectiveSpecAt
        { text := ['a'],
          styleTags :=
            [(⟨"Calibri", 11, true, false, false, false⟩, [(0, 1)])],
          fgTags := [("#ff0000", [(0, 1)])], bgTags := [],
          alignLeft := [], alignCenter := [(0, 2)], alignRight := [],
          defFamily := "Calibri", defSize := 11 } 0 ∧
    resolveAlignAt (loadPayload (savePwp
      { text := ['a'],
        styleTags := [(⟨"Calibri", 11, true, false, false, false⟩, [(0, 1)])],
        fgTags := [("#ff0000", [(0, 1)])], bgTags := [],
        alignLeft := [], alignCenter := [(0, 2)], alignRight := [],
        defFamily := "Calibri", defSize := 11 })
      { text := ['a'],
        styleTags := [(⟨"Calibri", 11, true, false, false, false⟩, [(0, 1)])],
        fgTags := [("#ff0000", [(0, 1)])], bgTags := [],
        alignLeft := [], alignCenter := [(0, 2)], alignRight := [],
        defFamily := "Calibri", defSize := 11 }) 0
      = resolveAlignAt
        { text := ['a'],
          styleTags :=
            [(⟨"Calibri", 11, true, false, false, false⟩, [(0, 1)])],
          fgTags := [("#ff0000", [(0, 1)])], bgTags := [],
          alignLeft := [], alignCenter := [(0, 2)], alignRight := [],
          defFamily := "Calibri", defSize := 11 } 0 := by
  have h := claimC2
    { text := ['a'],
      styleTags := [(⟨"Calibri", 11, true, false, false, false⟩, [(0, 1)])],
      fgTags := [("#ff0000", [(0, 1)])], bgTags := [],
      alignLeft := [], alignCenter := [(0, 2)], alignRight := [],
      defFamily := "Calibri", defSize := 11 }
    (by decide) (by decide) (by decide)
  exact ⟨h.1, h.2.2.1 0 (by decide), h.2.2.2.2.2 0 (by decide)⟩

theorem setAlignment_undo_text (d : Doc) (al : Align) (lns : List Nat) :
    ((setAlignment d al lns).2.undo (setAlignment d al lns).1).text
      = d.text := by
  have hU : (setAlignment d al lns).2.undo (setAlignment d al lns).1
      = lns.foldl
          (fun dd ln => applyAlignmentToLine dd (getLineAlign d ln) ln)
          (applyAlignmentToLines d (some al) lns) := rfl
  rw [hU]
  exact (alignFold_text (fun ln => getLineAlign d ln) lns _).trans
    (alignFold_text (fun _ => some al) lns d)

theorem applyAlignmentToLines_getLineAlign (d : Doc) (al : Align)
    (lns : List Nat) (hv : ∀ ln ∈ lns, 1 ≤ ln ∧ ln ≤ numLines d)
    (ln₀ : Nat) (hmem : ln₀ ∈ lns) (h1 : 1 ≤ ln₀)
    (h2 : ln₀ ≤ numLines d) :
    getLineAlign (applyAlignmentToLines d (some al) lns) ln₀
      = some al := by
  have htext : (applyAlignmentToLines d (some al) lns).text = d.text :=
    alignFold_text (fun _ => some al) lns d
  apply getLineAlign_of_covers
  intro X
  rw [docLines_congr htext]
  refine covers_alignFold_in (fun _ => some al) X _ ln₀ lns d hmem
    (by simp [lineSpan]) (by simp only [lineSpan]; omega) ?_
  intro ln hln ha hb
  by_contra hne
  exact lineSpan_disjoint d h1 h2 (hv ln hln).1 (hv ln hln).2
    (fun he => hne he.symm) _ (by simp [lineSpan])
    (by simp only [lineSpan]; omega) ⟨ha, hb⟩

theorem setAlignment_undo_restores (d : Doc) (al : Align) (lns : List Nat)
    (hv : ∀ ln ∈ lns, 1 ≤ ln ∧ ln ≤ numLines d)
    (ln₀ : Nat) (h1 : 1 ≤ ln₀) (h2 : ln₀ ≤ numLines d) :
    getLineAlign ((setAlignment d al lns).2.undo (setAlignment d al lns).1)
      ln₀ = getLineAlign d ln₀ := by
  have hU : (setAlignment d al lns).2.undo (setAlignment d al lns).1
      = lns.foldl
          (fun dd ln => applyAlignmentToLine dd (getLineAlign d ln) ln)
          (applyAlignmentToLines d (some al) lns) := rfl
  rw [hU]
  have htextd' : (applyAlignmentToLines d (some al) lns).text = d.text :=
    alignFold_text (fun _ => some al) lns d
  have htextU : (lns.foldl
      (fun dd ln => applyAlignmentToLine dd (getLineAlign d ln) ln)
      (applyAlignmentToLines d (some al) lns)).text = d.text :=
    (alignFold_text (fun ln => getLineAlign d ln) lns _).trans htextd'
  by_cases hmem : ln₀ ∈ lns
  · apply getLineAlign_of_covers
    intro X
    rw [docLines_congr htextU]
    refine covers_alignFold_in (fun ln => getLineAlign d ln) X _ ln₀ lns
      (applyAlignmentToLines d (some al) lns) hmem
      (by rw [lineSpan_congr htextd']; simp [lineSpan])
      (by rw [lineSpan_congr htextd']; simp only [lineSpan]; omega) ?_
    intro ln hln ha hb
    rw [lineSpan_congr htextd'] at ha hb
    by_contra hne
    exact lineSpan_disjoint d h1 h2 (hv ln hln).1 (hv ln hln).2
      (fun he => hne he.symm) _ (by simp [lineSpan])
      (by simp only [lineSpan]; omega) ⟨ha, hb⟩
  · have hout : ∀ ln ∈ lns,
        lineStartPos (docLines d) ln₀ < (lineSpan d ln).1 ∨
        (lineSpan d ln).2 ≤ lineStartPos (docLines d) ln₀ := by
      intro ln hln
      have hd := lineSpan_disjoint d h1 h2 (hv ln hln).1 (hv ln hln).2
        (fun he => hmem (show ln₀ ∈ lns by rw [he]; exact hln))
        (lineStartPos (docLines d) ln₀)
        (by simp [lineSpan]) (by simp only [lineSpan]; omega)
      omega
    have hcov : ∀ X, covers (alignRanges (lns.foldl
        (fun dd ln => applyAlignmentToLine dd (getLineAlign d ln) ln)
        (applyAlignmentToLines d (some al) lns)) X)
        (lineStartPos (docLines d) ln₀) =
        covers (alignRanges d X) (lineStartPos (docLines d) ln₀) := by
      intro X
      exact (covers_alignFold_out (fun ln => getLineAlign d ln) X _ lns _
          (fun ln hln => by
            rw [lineSpan_congr htextd']
            exact hout ln hln)).trans
        (covers_alignFold_out (fun _ => some al) X _ lns d hout)
    exact getLineAlign_congr' d _ ln₀ htextU (hcov .left) (hcov .center)
      (hcov .right)

/-- C3: formatting-redo arbitration around a representative formatting
action (`set_alignment`).  After the action and `safe_undo`, the text
and every line's alignment are back to their pre-action values and the
formatting redo stack can fire; `safe_redo` then re-applies the
alignment (reporting that the formatting stack handled it); pushing any
new formatting action empties the redo stack; and a plain text edit
after the undo disables formatting redo, so `safe_redo` falls through to
the text-edit history. -/
theorem claimC3 (st : AppState) (al : Align) (lns : List Nat)
    (hv : ∀ ln ∈ lns, 1 ≤ ln ∧ ln ≤ numLines st.doc) :
    (safeUndo (doSetAlignment st al lns)).doc.text = st.doc.text ∧
    (∀ ln₀, 1 ≤ ln₀ → ln₀ ≤ numLines st.doc →
      getLineAlign (safeUndo (doSetAlignment st al lns)).doc ln₀
        = getLineAlign st.doc ln₀) ∧
    canRedoFormat (safeUndo (doSetAlignment st al lns)).fmt = true ∧
    (safeRedo (safeUndo (doSetAlignment st al lns))).2 = true ∧
    (∀ ln₀ ∈ lns, getLineAlign
        (safeRedo (safeUndo (doSetAlignment st al lns))).1.doc ln₀
      = some al) ∧
    (∀ a : FmtAction, canRedoFormat
        (pushFmtAction (safeUndo (doSetAlignment st al lns)).fmt a)
      = false) ∧
    (∀ f : Doc → Doc,
      canRedoFormat
        (plainTextEdit (safeUndo (doSetAlignment st al lns)) f).fmt
        = false ∧
      (safeRedo (plainTextEdit (safeUndo (doSetAlignment st al lns)) f)).2
        = false) := by
  have htext2 : (safeUndo (doSetAlignment st al lns)).doc.text
      = st.doc.text := setAlignment_undo_text st.doc al lns
  refine ⟨htext2, ?_, rfl, rfl, ?_, fun a => rfl, fun f => ⟨rfl, rfl⟩⟩
  · intro ln₀ hl1 hl2
    exact setAlignment_undo_restores st.doc al lns hv ln₀ hl1 hl2
  · intro ln₀ hmem
    have hnum : numLines (safeUndo (doSetAlignment st al lns)).doc
        = numLines st.doc := by
      unfold numLines
      rw [docLines_congr htext2]
    exact applyAlignmentToLines_getLineAlign
      (safeUndo (doSetAlignment st al lns)).doc al lns
      (fun ln h => by rw [hnum]; exact hv ln h) ln₀ hmem
      (hv ln₀ hmem).1 (by rw [hnum]; exact (hv ln₀ hmem).2)

/-- Witness for C3: on the two-line document `"a\nb"` with empty stacks,
centering line 1, undoing and redoing behaves as claimed, and a text
edit after the undo kills the formatting redo. -/
theorem claimC3_witness :
    canRedoFormat (safeUndo (doSetAlignment
      ⟨{ text := ['a', '\n', 'b'], styleTags := [], fgTags := [],
         bgTags := [], alignLeft := [], alignCenter := [], alignRight := [],
         defFamily := "Calibri", defSize := 11 },
        ⟨[], [], ActionKind.text, none⟩, [], []⟩ Align.center [1])).fmt
      = true ∧
    (safeRedo (safeUndo (doSetAlignment
      ⟨{ text := ['a', '\n', 'b'], styleTags := [], fgTags := [],
         bgTags := [], alignLeft := [], alignCenter := [], alignRight := [],
         defFamily := "Calibri", defSize := 11 },
        ⟨[], [], ActionKind.text, none⟩, [], []⟩ Align.center [1]))).2
      = true ∧
    getLineAlign (safeRedo (safeUndo (doSetAlignment
      ⟨{ text := ['a', '\n', 'b'], styleTags := [], fgTags := [],
         bgTags := [], alignLeft := [], alignCenter := [], alignRight := [],
         defFamily := "Calibri", defSize := 11 },
        ⟨[], [], ActionKind.text, none⟩, [], []⟩ Align.center [1]))).1.doc 1
      = some Align.center ∧
    (safeRedo (plainTextEdit (safeUndo (doSetAlignment
      ⟨{ text := ['a', '\n', 'b'], styleTags := [], fgTags := [],
         bgTags := [], alignLeft := [], alignCenter := [], alignRight := [],
         defFamily := "Calibri", defSize := 11 },
        ⟨[], [], ActionKind.text, none⟩, [], []⟩ Align.center [1]))
      (fun dd => dd))).2 = false := by
  have h := claimC3
    ⟨{ text := ['a', '\n', 'b'], styleTags := [], fgTags := [],
       bgTags := [], alignLeft := [], alignCenter := [], alignRight := [],
       defFamily := "Calibri", defSize := 11 },
      ⟨[], [], ActionKind.text, none⟩, [], []⟩ Align.center [1]
    (by decide)
  exact ⟨h.2.2.1, h.2.2.2.1, h.2.2.2.2.1 1 (by decide),
    (h.2.2.2.2.2.2 (fun dd => dd)).2⟩

theorem alignFold_atMostOne (d : Doc) (f : Nat → Option Align)
    (lns : List Nat) (hv : ∀ ln ∈ lns, 1 ≤ ln ∧ ln ≤ numLines d)
    (ln₀ : Nat) (hmem : ln₀ ∈ lns) (p : Nat)
    (hp1 : (lineSpan d ln₀).1 ≤ p) (hp2 : p < (lineSpan d ln₀).2) :
    alignCoverCount
      (lns.foldl (fun dd ln => applyAlignmentToLine dd (f ln) ln) d) p
      ≤ 1 := by
  have hcov : ∀ X, covers (alignRanges
      (lns.foldl (fun dd ln => applyAlignmentToLine dd (f ln) ln) d) X) p =
      decide (f ln₀ = some X) := by
    intro X
    refine covers_alignFold_in f X p ln₀ lns d hmem hp1 hp2 ?_
    intro ln hln ha hb
    by_contra hne
    exact lineSpan_disjoint d (hv ln₀ hmem).1 (hv ln₀ hmem).2
      (hv ln hln).1 (hv ln hln).2 (fun he => hne he.symm) p hp1 hp2
      ⟨ha, hb⟩
  have hL : covers
      (lns.foldl (fun dd ln => applyAlignmentToLine dd (f ln) ln) d).alignLeft
      p = decide (f ln₀ = some Align.left) := hcov Align.left
  have hC : covers
      (lns.foldl
        (fun dd ln => applyAlignmentToLine dd (f ln) ln) d).alignCenter
      p = decide (f ln₀ = some Align.center) := hcov Align.center
  have hR : covers
      (lns.foldl
        (fun dd ln => applyAlignmentToLine dd (f ln) ln) d).alignRight
      p = decide (f ln₀ = some Align.right) := hcov Align.right
  unfold alignCoverCount
  rw [hL, hC, hR]
  cases hf : f ln₀ with
  | none => simp
  | some a => cases a <;> simp

/-- C10: after `set_alignment` on a block of lines, and equally after its
recorded undo and redo closures run via `safe_undo` / `safe_redo`, every
position of an affected line is covered by at most one of the three
alignment tags — each per-line pass removes all three tags over the
whole line span before adding one. -/
theorem claimC10 (st : AppState) (al : Align) (lns : List Nat)
    (hv : ∀ ln ∈ lns, 1 ≤ ln ∧ ln ≤ numLines st.doc)
    (ln₀ : Nat) (hmem : ln₀ ∈ lns) (p : Nat)
    (hp1 : (lineSpan st.doc ln₀).1 ≤ p)
    (hp2 : p < (lineSpan st.doc ln₀).2) :
    alignCoverCount (doSetAlignment st al lns).doc p ≤ 1 ∧
    alignCoverCount (safeUndo (doSetAlignment st al lns)).doc p ≤ 1 ∧
    alignCoverCount (safeRedo (safeUndo (doSetAlignment st al lns))).1.doc
      p ≤ 1 := by
  have htextd' : (applyAlignmentToLines st.doc (some al) lns).text
      = st.doc.text := alignFold_text (fun _ => some al) lns st.doc
  have hnum' : numLines (applyAlignmentToLines st.doc (some al) lns)
      = numLines st.doc := by
    unfold numLines
    rw [docLines_congr htextd']
  have htext2 : (safeUndo (doSetAlignment st al lns)).doc.text
      = st.doc.text := setAlignment_undo_text st.doc al lns
  have hnum2 : numLines (safeUndo (doSetAlignment st al lns)).doc
      = numLines st.doc := by
    unfold numLines
    rw [docLines_congr htext2]
  refine ⟨?_, ?_, ?_⟩
  · exact alignFold_atMostOne st.doc (fun _ => some al) lns hv ln₀ hmem p
      hp1 hp2
  · exact alignFold_atMostOne (applyAlignmentToLines st.doc (some al) lns)
      (fun ln => getLineAlign st.doc ln) lns
      (fun ln h => by rw [hnum']; exact hv ln h) ln₀ hmem p
      (by rw [lineSpan_congr htextd']; exact hp1)
      (by rw [lineSpan_congr htextd']; exact hp2)
  · exact alignFold_atMostOne (safeUndo (doSetAlignment st al lns)).doc
      (fun _ => some al) lns
      (fun ln h => by rw [hnum2]; exact hv ln h) ln₀ hmem p
      (by rw [lineSpan_congr htext2]; exact hp1)
      (by rw [lineSpan_congr htext2]; exact hp2)

/-- Witness for C10: centering line 1 of `"a\nb"`, then undoing and
redoing, leaves position 0 under at most one alignment tag. -/
theorem claimC10_witness :
    alignCoverCount (doSetAlignment
      ⟨{ text := ['a', '\n', 'b'], styleTags := [], fgTags := [],
         bgTags := [], alignLeft := [(0, 2)], alignCenter := [],
         alignRight := [], defFamily := "Calibri", defSize := 11 },
        ⟨[], [], ActionKind.text, none⟩, [], []⟩ Align.center [1]).doc 0
      ≤ 1 ∧
    alignCoverCount (safeUndo (doSetAlignment
      ⟨{ text := ['a', '\n', 'b'], styleTags := [], fgTags := [],
         bgTags := [], alignLeft := [(0, 2)], alignCenter := [],
         alignRight := [], defFamily := "Calibri", defSize := 11 },
        ⟨[], [], ActionKind.text, none⟩, [], []⟩ Align.center [1])).doc 0
      ≤ 1 ∧
    alignCoverCount (safeRedo (safeUndo (doSetAlignment
      ⟨{ text := ['a', '\n', 'b'], styleTags := [], fgTags := [],
         bgTags := [], alignLeft := [(0, 2)], alignCenter := [],
         alignRight := [], defFamily := "Calibri", defSize := 11 },
        ⟨[], [], ActionKind.text, none⟩, [], []⟩
      Align.center [1]))).1.doc 0 ≤ 1 :=
  claimC10
    ⟨{ text := ['a', '\n', 'b'], styleTags := [], fgTags := [],
       bgTags := [], alignLeft := [(0, 2)], alignCenter := [],
       alignRight := [], defFamily := "Calibri", defSize := 11 },
      ⟨[], [], ActionKind.text, none⟩, [], []⟩ Align.center [1]
    (by decide) 1 (by decide) 0 (by decide) (by decide)

end PyWordPro
